import Mathlib

/-!
Verification development for the archive-dump rehydration script.

The script's string-processing core (URL parsing, wayback-wrapper stripping,
path normalization, the link-resolution cascade, comment-stripping minifiers,
and the asset-deduplication pass) is shallowly embedded here over `List Char`.
Each definition mirrors the corresponding Python function; Python standard
library helpers that the script calls (`urllib.parse.urlparse`,
`posixpath.normpath`, `os.path.splitext`, `str.strip`, ...) are embedded
faithfully for the ASCII inputs the script manipulates.
-/

set_option maxHeartbeats 1000000

/-- Strings are modelled as lists of characters. -/
abbrev Str := List Char

/-- The single-quote character (code point 39). -/
def squoteChar : Char := Char.ofNat 39

/-- The backtick character (code point 96). -/
def backtickChar : Char := Char.ofNat 96

/-- The backslash character. -/
def backslashChar : Char := '\\'

/-- Python `str.lower` restricted to ASCII, which is all the script feeds it. -/
def lowerStr (l : Str) : Str := l.map Char.toLower

/-- Python's `needle in hay` substring test. -/
def containsSeq (needle : Str) : Str → Bool
  | [] => needle.isEmpty
  | c :: t => needle.isPrefixOf (c :: t) || containsSeq needle t

/-- Python's `c in hay` single-character membership test. -/
def containsChar (c : Char) (l : Str) : Bool := l.any (fun x => x = c)

/-- Split at the first occurrence of character `c`:
`some (before, after)` when present, `none` otherwise
(Python `s.split(c, 1)` when it actually splits). -/
def splitCharOnce (c : Char) : Str → Option (Str × Str)
  | [] => none
  | x :: t =>
    if x = c then some ([], t)
    else (splitCharOnce c t).map (fun p => (x :: p.1, p.2))

/-- Index of the first occurrence of `needle` in `hay`, Python `str.find`
(restricted to the found case; `none` models `-1`). -/
def findSeqIdx (needle : Str) : Str → Option Nat
  | [] => if needle.isEmpty then some 0 else none
  | c :: t =>
    if needle.isPrefixOf (c :: t) then some 0
    else (findSeqIdx needle t).map (fun n => n + 1)

/-- Split at the first occurrence of the separator sequence `sep`:
`some (before, after)` when present (Python `s.split(sep, 1)` when it splits). -/
def splitSeqOnce (sep : Str) (l : Str) : Option (Str × Str) :=
  (findSeqIdx sep l).map (fun i => (l.take i, l.drop (i + sep.length)))

/-- Python `s.split(c)` (no limit): always returns `count + 1` pieces,
including empty ones. -/
def splitCharAll (c : Char) : Str → List Str
  | [] => [[]]
  | x :: t =>
    let r := splitCharAll c t
    if x = c then [] :: r
    else
      match r with
      | h :: rest => (x :: h) :: rest
      | [] => [[x]]

/-- Python `sep.join(pieces)` for a single-character separator. -/
def joinChar (c : Char) (l : List Str) : Str := List.intercalate [c] l

/-- Python `str.endswith` for list-strings. -/
def endsWithStr (suffix0 : Str) (l : Str) : Bool := suffix0.isSuffixOf l

/-- Python `str.startswith` for list-strings. -/
def startsWithStr (pre : Str) (l : Str) : Bool := pre.isPrefixOf l

/-- The six ASCII whitespace characters recognised by Python's `str.strip()`
and `str.isspace()` (the script never feeds them non-ASCII whitespace). -/
def pyIsSpace (c : Char) : Bool :=
  c = ' ' || c = '\t' || c = '\n' || c = '\r' || c = Char.ofNat 11 || c = Char.ofNat 12

/-- Python `str.strip()` with no argument: trim ASCII whitespace on both ends. -/
def pyStrip (l : Str) : Str :=
  ((l.dropWhile pyIsSpace).reverse.dropWhile pyIsSpace).reverse

/-- Python `str.strip(chars)`: trim any of the given characters on both ends. -/
def pyStripChars (cs : Str) (l : Str) : Str :=
  ((l.dropWhile (fun c => containsChar c cs)).reverse.dropWhile
      (fun c => containsChar c cs)).reverse

/-- Python `str.lstrip(c)` for a single character. -/
def lstripChar (c : Char) (l : Str) : Str := l.dropWhile (fun x => x = c)

/-- Python `str.rstrip(c)` for a single character. -/
def rstripChar (c : Char) (l : Str) : Str :=
  (l.reverse.dropWhile (fun x => x = c)).reverse

/-- Membership of a list-string in a list of list-strings (a Python
`x in container` test against a set/tuple of strings). -/
def memS (m : List Str) (x : Str) : Bool := m.any (fun y => y = x)

/-- Association-list lookup, modelling a Python `dict` read
(keys are unique by construction everywhere the script builds one). -/
def assocGet (m : List (Str × Str)) (k : Str) : Option Str :=
  match m with
  | [] => none
  | (k', v) :: t => if k' = k then some v else assocGet t k

/-- Association-list update, modelling Python `dict[k] = v`: overwrite in
place when the key exists, append otherwise (insertion order preserved). -/
def assocSet (m : List (Str × Str)) (k v : Str) : List (Str × Str) :=
  match m with
  | [] => [(k, v)]
  | (k', v') :: t => if k' = k then (k, v) :: t else (k', v') :: assocSet t k v

/-! ### Embeddings of the Python path helpers the script calls -/

/-- One step of `posixpath.normpath`'s component loop. `initSlash` records
whether the input was absolute (it never is for the script's cleaned paths,
but the embedding keeps the case). -/
def normpathStep (initSlash : Nat) (acc : List Str) (comp : Str) : List Str :=
  if comp = [] || comp = ['.'] then acc
  else if comp ≠ ['.', '.'] || (initSlash = 0 && acc = []) ||
      (acc ≠ [] && acc.getLast? = some ['.', '.']) then acc ++ [comp]
  else if acc ≠ [] then acc.dropLast
  else acc

/-- `posixpath.normpath` (the script runs on a POSIX filesystem, so
`os.path.normpath` is this function too). -/
def posix_normpath (p : Str) : Str :=
  if p = [] then ['.']
  else
    let initSlash : Nat :=
      if startsWithStr ['/'] p then
        if startsWithStr ['/', '/'] p && !startsWithStr ['/', '/', '/'] p then 2 else 1
      else 0
    let comps := splitCharAll '/' p
    let newComps := comps.foldl (normpathStep initSlash) []
    let joined := List.replicate initSlash '/' ++ joinChar '/' newComps
    if joined = [] then ['.'] else joined

/-- The script's `norm_slashes`: `os.path.normpath(path).replace("\\", "/")`. -/
def norm_slashes (p : Str) : Str :=
  (posix_normpath p).map (fun c => if c = backslashChar then '/' else c)

/-- `posixpath.basename`: everything after the last `/`. -/
def posix_basename (p : Str) : Str :=
  match splitCharOnce '/' p.reverse with
  | none => p
  | some (revBase, _) => revBase.reverse

/-- `posixpath.dirname`: everything before the last `/` (empty if none). -/
def posix_dirname (p : Str) : Str :=
  match splitCharOnce '/' p.reverse with
  | none => []
  | some (_, revDir) => revDir.reverse

/-- `os.path.splitext(p)[1]` on POSIX: the extension including its dot, where
leading dots of the basename never start an extension
(`splitext(".html") = (".html", "")`). -/
def splitextExt (p : Str) : Str :=
  let base := posix_basename p
  let core := base.dropWhile (fun c => c = '.')
  match splitCharOnce '.' core.reverse with
  | none => []
  | some (revExt, _) => '.' :: revExt.reverse

/-- `posixpath.join(a, b)` for two components, as `os.path.join` behaves on
the POSIX paths the script assembles. -/
def posix_join (a b : Str) : Str :=
  if startsWithStr ['/'] b then b
  else if a = [] || endsWithStr ['/'] a then a ++ b
  else a ++ '/' :: b

/-- The script's `clean_root_path`: strip leading slashes, normalize, and map
the normal form `"."` to the empty path. -/
def clean_root_path (p : Str) : Str :=
  let stripped := lstripChar '/' p
  let n := posix_normpath stripped
  if n = ['.'] then [] else n

/-! ### Embedding of `urllib.parse.urlparse` (for the ASCII URLs the script handles) -/

/-- Result of `urllib.parse.urlsplit`/`urlparse` (the `params` component is
folded away: `urlparse` removes it from `path`, which is what the script
reads; none of the script's code reads `.params`). -/
structure UrlParts where
  scheme : Str
  netloc : Str
  path : Str
  query : Str
  fragment : Str
deriving DecidableEq, Repr

/-- CPython removes tab, CR and LF from a URL before splitting it. -/
def removeUnsafe (l : Str) : Str :=
  l.filter (fun c => !(c = '\t' || c = '\r' || c = '\n'))

/-- Characters allowed in a URL scheme (`urllib.parse.scheme_chars`). -/
def isSchemeChar (c : Char) : Bool :=
  c.isAlpha || c.isDigit || c = '+' || c = '-' || c = '.'

/-- The scheme-splitting step of `urlsplit`: the text before the first `:`
is a scheme when it is nonempty, starts with a letter and consists of
scheme characters. -/
def schemeSplit (url : Str) : Str × Str :=
  match splitCharOnce ':' url with
  | some (ph :: pt, post) =>
    if (ph :: pt).all isSchemeChar && ph.isAlpha then (lowerStr (ph :: pt), post)
    else ([], url)
  | _ => ([], url)

/-- A character ending the netloc region (`urllib.parse._splitnetloc`). -/
def netlocStop (c : Char) : Bool := c = '/' || c = '?' || c = '#'

/-- The netloc-splitting step of `urlsplit`: after a leading `//`, the netloc
runs until the first of `/`, `?`, `#`. -/
def netlocSplit (url : Str) : Str × Str :=
  if startsWithStr ['/', '/'] url then
    let rest := url.drop 2
    (rest.takeWhile (fun c => !netlocStop c), rest.dropWhile (fun c => !netlocStop c))
  else ([], url)

/-- `urllib.parse.urlsplit`. -/
def urlsplitPy (url0 : Str) : UrlParts :=
  let url1 := removeUnsafe url0
  let sp := schemeSplit url1
  let np := netlocSplit sp.2
  let fp := match splitCharOnce '#' np.2 with
    | some (a, b) => (a, b)
    | none => (np.2, [])
  let qp := match splitCharOnce '?' fp.1 with
    | some (a, b) => (a, b)
    | none => (fp.1, [])
  ⟨sp.1, np.1, qp.1, qp.2, fp.2⟩

/-- `urllib.parse._splitparams`: split `;params` off the last path segment. -/
def splitParams (url : Str) : Str × Str :=
  if containsChar '/' url then
    match splitCharOnce ';' (posix_basename url) with
    | none => (url, [])
    | some (a, b) => (posix_dirname url ++ '/' :: a, b)
  else
    match splitCharOnce ';' url with
    | none => (url, [])
    | some (a, b) => (a, b)

/-- The schemes for which `urlparse` performs parameter splitting
(`urllib.parse.uses_params`; the empty scheme is among them). -/
def usesParams : List Str :=
  ["", "ftp", "hdl", "prospero", "http", "imap", "https", "shttp", "rtsp",
   "rtspu", "sip", "sips", "mms", "sftp", "tel"].map String.toList

/-- `urllib.parse.urlparse`: `urlsplit` plus parameter removal from the path. -/
def urlparsePy (url : Str) : UrlParts :=
  let u := urlsplitPy url
  if memS usesParams u.scheme && containsChar ';' u.path then
    { u with path := (splitParams u.path).1 }
  else u

/-- `urllib.parse.urlunsplit` restricted to empty query/fragment, which is how
the script's `split_qf` calls `urlunparse`. -/
def urlunsplitNoQF (scheme netloc path : Str) : Str :=
  let url :=
    if netloc ≠ [] || startsWithStr ['/', '/'] path then
      '/' :: '/' :: netloc ++
        (if path ≠ [] && !startsWithStr ['/'] path then '/' :: path else path)
    else path
  if scheme ≠ [] then scheme ++ ':' :: url else url

/-! ### Embeddings of the script's URL helpers -/

/-- Literal `"web.archive.org"`. -/
def webArchiveOrgS : Str := "web.archive.org".toList

/-- Literal `"/web/"`. -/
def slashWebSlashS : Str := "/web/".toList

/-- Literal `"http://"`. -/
def httpSlashesS : Str := "http://".toList

/-- Literal `"https://"`. -/
def httpsSlashesS : Str := "https://".toList

/-- The script's `strip_wayback`. -/
def strip_wayback (url : Str) : Str :=
  if url = [] then url
  else
    let parsed := urlparsePy url
    if containsSeq webArchiveOrgS (lowerStr parsed.netloc) &&
        containsSeq slashWebSlashS parsed.path then
      let tail0 := match splitSeqOnce slashWebSlashS parsed.path with
        | some (_, after) => after
        | none => parsed.path
      if containsChar '/' tail0 then
        let maybe := match splitCharOnce '/' tail0 with
          | some (_, after) => after
          | none => tail0
        if startsWithStr httpSlashesS maybe || startsWithStr httpsSlashesS maybe then
          maybe ++ (if parsed.fragment ≠ [] then '#' :: parsed.fragment else [])
        else url
      else url
    else url

/-- The archive wrapper: `https://web.archive.org/web/<t>/<u>`. The spec's
round-trip property quantifies over this constructor. -/
def wrapWayback (u t : Str) : Str :=
  httpsSlashesS ++ webArchiveOrgS ++ slashWebSlashS.dropLast ++ '/' :: t ++ '/' :: u

/-- The script's `url_basename`. -/
def url_basename (url : Str) : Str :=
  let u0 := strip_wayback url
  let u1 := match splitCharOnce '#' u0 with
    | some (a, _) => a
    | none => u0
  let u2 := match splitCharOnce '?' u1 with
    | some (a, _) => a
    | none => u1
  posix_basename (norm_slashes u2)

/-- The script's `split_qf`: `(base-without-query-fragment, query, fragment)`. -/
def split_qf (url : Str) : Str × Str × Str :=
  let parsed := urlparsePy url
  (urlunsplitNoQF parsed.scheme parsed.netloc parsed.path, parsed.query, parsed.fragment)

/-- The script's `should_skip_scheme`. -/
def should_skip_scheme (url : Str) : Bool :=
  if url = [] || startsWithStr ['#'] url then true
  else
    let low := lowerStr url
    startsWithStr "mailto:".toList low || startsWithStr "tel:".toList low ||
    startsWithStr "javascript:".toList low || startsWithStr "data:".toList low ||
    startsWithStr "blob:".toList low || startsWithStr "about:".toList low

/-- The script's `extract_path_after_domain`: find the entered domain string
(case-insensitively) inside the attribute value, skip an optional `:port`,
and return everything from the next `/` on, split into path and fragment.
`none` models the Python `(None, None)` return. The Python `base_no_qf or "/"`
fallback makes the returned path nonempty, which is why the caller's
`if not path_after` test is subsumed by the `none` case. -/
def extract_path_after_domain (s0 base_host : Str) : Option (Str × Str) :=
  match findSeqIdx (lowerStr base_host) (lowerStr s0) with
  | none => none
  | some i =>
    let k0 := i + base_host.length
    let k := match s0.drop k0 with
      | ':' :: rest => k0 + 1 + (rest.takeWhile Char.isDigit).length
      | _ => k0
    let pathPlus := match splitCharOnce '/' (s0.drop k) with
      | none => ['/']
      | some (_, after) => '/' :: after
    let r := split_qf pathPlus
    some ((if r.1 = [] then ['/'] else r.1), r.2.2)

/-! ### Embedding of the link-resolution cascade -/

/-- The `RESOURCE_EXTS` tuple in effect while `fix_local_links_in_site` runs
(the module-level rebinding at the `LINK_RE` section shadows the earlier set). -/
def resourceExtsTuple : List Str :=
  [".css", ".js", ".png", ".jpg", ".jpeg", ".gif", ".svg", ".webp", ".ico",
   ".bmp", ".ttf", ".woff", ".woff2", ".eot", ".mp4", ".webm"].map String.toList

/-- The script's `is_resource_path`. -/
def is_resource_path (p : Str) : Bool :=
  memS resourceExtsTuple (splitextExt (lowerStr p))

/-- Literal `"index.html"`. -/
def indexHtmlS : Str := "index.html".toList

/-- Literal `"index.htm"`. -/
def indexHtmS : Str := "index.htm".toList

/-- Literal `".html"`. -/
def dotHtmlS : Str := ".html".toList

/-- The script's `try_variants_in_map`. The file index is the key set of the
Python `file_map` dict (the function only performs `in` tests on it). -/
def try_variants_in_map (relPath : Str) (fileMap : List Str) : Option Str :=
  let rp := norm_slashes relPath
  if memS fileMap rp then some rp
  else if endsWithStr ['/'] rp && memS fileMap (rp ++ indexHtmlS) then
    some (rp ++ indexHtmlS)
  else
    let base := posix_basename rp
    let c1 : Option Str :=
      if !containsChar '.' base then
        let cand := rstripChar '/' rp ++ '/' :: indexHtmlS
        if memS fileMap cand then some cand else none
      else none
    match c1 with
    | some c => some c
    | none =>
      if !endsWithStr dotHtmlS (lowerStr rp) && memS fileMap (rp ++ dotHtmlS) then
        some (rp ++ dotHtmlS)
      else none

/-- The script's `MAX_STRIP_PREFIX_SEGMENTS` constant. -/
def maxStripSegments : Nat := 2

/-- The `for cut in range(1, min(MAX, len(parts)) + 1)` retry loop of
`resolve_local_target`. -/
def stripTryLoop (parts : List Str) (fileMap : List Str) (cut stop : Nat) :
    Option Str :=
  if cut > stop then none
  else
    match try_variants_in_map (joinChar '/' (parts.drop cut)) fileMap with
    | some h => some h
    | none => stripTryLoop parts fileMap (cut + 1) stop
termination_by stop + 1 - cut
decreasing_by omega

/-- The script's `resolve_local_target`. -/
def resolve_local_target (relPath : Str) (fileMap : List Str) : Option Str :=
  match try_variants_in_map relPath fileMap with
  | some h => some h
  | none =>
    let parts := (splitCharAll '/' relPath).filter (fun p => p ≠ [])
    stripTryLoop parts fileMap 1 (min maxStripSegments parts.length)

/-- The resolution decision taken by `rewrite_attr` inside
`fix_local_links_in_site`, up to (but not including) the relative-path
rendering: `some (target, fragment)` when the attribute value is rewritten to
point at `target`, `none` when the value is left untouched. -/
def rewrite_attr_decision (domainFull : Str) (fileMap : List Str) (val : Str) :
    Option (Str × Str) :=
  if val = [] then none
  else if should_skip_scheme val then none
  else if !containsSeq (lowerStr domainFull) (lowerStr val) then none
  else
    match extract_path_after_domain val domainFull with
    | none => none
    | some (pathAfter, frag) =>
      let cleaned := clean_root_path pathAfter
      let target1 : Option Str :=
        if cleaned = [] then
          if memS fileMap indexHtmlS then some indexHtmlS
          else if memS fileMap indexHtmS then some indexHtmS
          else none
        else none
      match target1 with
      | some t => some (t, frag)
      | none =>
        match
          (if is_resource_path cleaned then
            (if memS fileMap cleaned then some cleaned else none)
          else resolve_local_target cleaned fileMap) with
        | some t => some (t, frag)
        | none => none

/-! ### Embedding of the CSS path rewriting and the asset maps -/

/-- Element-wise common-prefix length (`os.path.commonprefix` on the
component lists inside `posixpath.relpath`). -/
def commonLen : List Str → List Str → Nat
  | a :: as, b :: bs => if a = b then 1 + commonLen as bs else 0
  | _, _ => 0

/-- `os.path.relpath(site_abs/target, start=site_abs/startDir)` for two
site-relative POSIX paths: the shared absolute `site_abs` component lists
cancel in `relpath`'s common-prefix computation, leaving this site-relative
calculation. -/
def relpath_under_site (target startDir : Str) : Str :=
  let pList := (splitCharAll '/' (posix_normpath target)).filter (fun x => x ≠ [])
  let sList := (splitCharAll '/' (posix_normpath startDir)).filter (fun x => x ≠ [])
  let i := commonLen pList sList
  let rel := List.replicate (sList.length - i) ['.', '.'] ++ pList.drop i
  if rel = [] then ['.'] else joinChar '/' rel

/-- The two quote characters stripped by `.strip('"\'')`. -/
def quoteChars : Str := ['"', squoteChar]

/-- The `repl_import` replacement function inside `css_rewrite_paths`:
`g` is the regex group carrying the reference text, `whole` the whole matched
`@import` statement (returned unchanged when no map entry is found), and
`cssDir` the site-relative directory of the stylesheet being rewritten. -/
def repl_import (cssMap : List (Str × Str)) (cssDir : Str) (g whole : Str) :
    Str :=
  let urlq := pyStripChars quoteChars (pyStrip g)
  let clean := strip_wayback urlq
  let key := lowerStr (url_basename clean)
  let target? := match assocGet cssMap key with
    | some t => some t
    | none => assocGet cssMap clean
  match target? with
  | none => whole
  | some target =>
    "@import \"".toList ++ norm_slashes (relpath_under_site target cssDir) ++
      '"' :: [';']

/-- The `repl_url` replacement function inside `css_rewrite_paths`: `g` is the
text captured inside `url(...)`, `whole` the whole matched construct. When no
map entry is found the original is returned only if wayback/query/fragment/
quote stripping changed nothing; otherwise the cleaned text is emitted. -/
def repl_url (imgMap fontMap : List (Str × Str)) (cssDir : Str)
    (g whole : Str) : Str :=
  let inside := pyStripChars quoteChars (pyStrip g)
  let c1 := strip_wayback inside
  let c2 := match splitCharOnce '#' c1 with
    | some (a, _) => a
    | none => c1
  let clean := match splitCharOnce '?' c2 with
    | some (a, _) => a
    | none => c2
  let key := lowerStr (url_basename clean)
  let target? := match assocGet imgMap key with
    | some t => some t
    | none =>
      match assocGet imgMap clean with
      | some t => some t
      | none =>
        match assocGet fontMap key with
        | some t => some t
        | none => assocGet fontMap clean
  match target? with
  | some target =>
    "url(".toList ++ norm_slashes (relpath_under_site target cssDir) ++ [')']
  | none =>
    if clean ≠ inside then "url(".toList ++ clean ++ [')']
    else whole

/-- Literal `"@ver="`. -/
def atVerS : Str := "@ver=".toList

/-- ASCII hexadecimal digit test (Lean 4.14's core lacks `Char.isHexDigit`). -/
def isHexDigitC (c : Char) : Bool :=
  c.isDigit || (decide ('a' ≤ c) && decide (c ≤ 'f')) ||
    (decide ('A' ≤ c) && decide (c ≤ 'F'))

/-- Python `urllib.parse.unquote` for the ASCII percent-escapes the script's
filenames carry (a multi-byte UTF-8 escape sequence would need byte-level
decoding; none of the properties below depends on one). Invalid escapes are
left untouched, as in Python. -/
def unquotePy : Str → Str
  | [] => []
  | '%' :: a :: b :: t =>
    match isHexDigitC a, isHexDigitC b with
    | true, true =>
      Char.ofNat (16 * (if a.isDigit then a.toNat - 48 else a.toLower.toNat - 87) +
        (if b.isDigit then b.toNat - 48 else b.toLower.toNat - 87)) :: unquotePy t
    | _, _ => '%' :: unquotePy (a :: b :: t)
  | c :: t => c :: unquotePy t

/-- The script's `map_put`: store under the percent-decoded, query/fragment-
stripped, lowercased name, plus an alias without any `@ver=` suffix. -/
def map_put (m : List (Str × Str)) (fname path : Str) : List (Str × Str) :=
  let a1 := match splitCharOnce '?' fname with
    | some (a, _) => a
    | none => fname
  let a2 := match splitCharOnce '#' a1 with
    | some (a, _) => a
    | none => a1
  let clean_low := lowerStr (unquotePy a2)
  let m1 := assocSet m clean_low path
  if containsSeq atVerS clean_low then
    let base_name :=
      (match splitSeqOnce atVerS clean_low with
        | some (a, _) => a
        | none => clean_low) ++ splitextExt clean_low
    assocSet m1 base_name path
  else m1

/-! ### Embedding of `dedupe_folder` -/

/-- Python string `<` (code-point lexicographic), as `sorted` uses it. -/
def lexLe : Str → Str → Bool
  | [], _ => true
  | _ :: _, [] => false
  | a :: as, b :: bs => decide (a < b) || (a = b && lexLe as bs)

/-- Insert into a name-sorted list of `(filename, digest)` pairs. -/
def insertSorted (x : Str × Str) : List (Str × Str) → List (Str × Str)
  | [] => [x]
  | y :: t => if lexLe x.1 y.1 then x :: y :: t else y :: insertSorted x t

/-- `sorted(...)` on `(filename, digest)` pairs by filename, modelling
`sorted(os.listdir(folder_abs))` with each file's digest carried along. -/
def sortByName (l : List (Str × Str)) : List (Str × Str) :=
  l.foldr insertSorted []

/-- The loop body of `dedupe_folder` over the sorted listing: the first file
presenting a digest is kept and recorded in `seen`; every later file with the
same digest is deleted and `mapping[fname.lower()]` is pointed at the
canonical file. Returns (surviving files, updated mapping). -/
def dedupe_go (rel_pfx : Str) (seen mapping : List (Str × Str))
    (survRev : List Str) : List (Str × Str) → List Str × List (Str × Str)
  | [] => (survRev.reverse, mapping)
  | (fname, h) :: rest =>
    match assocGet seen h with
    | none => dedupe_go rel_pfx (assocSet seen h fname) mapping (fname :: survRev) rest
    | some canon =>
      dedupe_go rel_pfx seen
        (assocSet mapping (lowerStr fname) (norm_slashes (posix_join rel_pfx canon)))
        survRev rest

/-- The script's `dedupe_folder`, over a directory listing given as
`(filename, content-digest)` pairs (`file_sha256` is abstracted by the digest
component; `os.remove` is modelled as succeeding). -/
def dedupe_folder (files : List (Str × Str)) (rel_pfx : Str)
    (mapping : List (Str × Str)) : List Str × List (Str × Str) :=
  dedupe_go rel_pfx [] mapping [] (sortByName files)

/-! ### Embedding of the lexical minifier -/

/-- Word character for the regex `\b` boundary (`[a-zA-Z0-9_]`). -/
def isWordChar (c : Char) : Bool := c.isAlphanum || c = '_'

/-- The negative lookahead `(?!\s*\[if\b)` of the HTML comment pattern:
`true` when a conditional-comment head (`\s*[if` then a word boundary)
follows, i.e. when the lookahead blocks the match (IGNORECASE makes
`if` case-insensitive). -/
def condLookahead (s0 : Str) : Bool :=
  match s0.dropWhile pyIsSpace with
  | '[' :: c1 :: c2 :: rest2 =>
    c1.toLower = 'i' && c2.toLower = 'f' &&
      (match rest2 with
        | [] => true
        | c :: _ => !isWordChar c)
  | _ => false

/-- The script's `_strip_html_comments_but_keep_conditionals`:
`re.sub(r"<!--(?!\s*\[if\b).*?-->", "", html, flags=DOTALL | IGNORECASE)`
as a left-to-right scan (a lazy `.*?` stops at the nearest `-->`;
an unterminated comment matches nothing and stays). -/
def strip_html_go : Nat → Str → Str
  | 0, l => l
  | _ + 1, [] => []
  | fuel + 1, '<' :: rest =>
    if startsWithStr "!--".toList rest && !condLookahead (rest.drop 3) then
      match splitSeqOnce "-->".toList (rest.drop 3) with
      | some (_, rest') => strip_html_go fuel rest'
      | none => '<' :: strip_html_go fuel rest
    else '<' :: strip_html_go fuel rest
  | fuel + 1, c :: t => c :: strip_html_go fuel t

/-- The script's `_strip_html_comments_but_keep_conditionals`:
`re.sub(r"<!--(?!\s*\[if\b).*?-->", "", html, flags=DOTALL | IGNORECASE)`.
The fuel argument of `strip_html_go` only serves structural termination; it
starts at the input length and every recursive call consumes at least one
character, so the `0` case is never reached from here. -/
def strip_html_comments_but_keep_conditionals (html : Str) : Str :=
  strip_html_go html.length html

def strip_css_go : Nat → Str → Str
  | 0, l => l
  | _ + 1, [] => []
  | fuel + 1, '/' :: '*' :: rest =>
    (match splitSeqOnce ['*', '/'] rest with
      | some (body, rest') =>
        if startsWithStr ['!'] body then
          '/' :: '*' :: body ++ '*' :: '/' :: strip_css_go fuel rest'
        else strip_css_go fuel rest'
      | none => '/' :: '*' :: rest)
  | fuel + 1, c :: t => c :: strip_css_go fuel t

/-- The script's `_strip_css_comments_keep_licenses`:
`re.sub(r"/\*.*?\*/", repl, css, flags=DOTALL)` where `repl` keeps a comment
starting `/*!` verbatim and deletes any other (a lazy `.*?` stops at the
nearest `*/`; an unterminated comment matches nothing and stays). The fuel
argument of `strip_css_go` only serves structural termination; it starts at
the input length and every recursive call consumes at least two characters. -/
def strip_css_comments_keep_licenses (css : Str) : Str :=
  strip_css_go css.length css

/-- The scanner states of `_strip_js_comments_preserve_strings`. -/
inductive JMode where
  | out
  | squote
  | dquote
  | template
  | regex
  | lineC
  | blockC
deriving DecidableEq, Repr

/-- The characters after which a `/` opens a regex literal
(`is_regex_context` in the script). -/
def regexContextChars : Str :=
  ['(', '[', '{', ',', ':', '=', '!', '+', '-', '*', '%', '&', '|', '^', '~',
   '?', '<', '>', ';']

/-- The script's `is_regex_context` over the tracked previous
non-whitespace character (`None` at scan start). -/
def is_regex_context (p : Option Char) : Bool :=
  match p with
  | none => true
  | some c => containsChar c regexContextChars

/-- Backward scan of the block-comment close handler: walking `done`
(the reversed already-consumed prefix `js[0:i]`) to find the nearest
preceding `/*`, i.e. the least `k` with `done[k] = '*'` and
`done[k+1] = '/'` (Python's `j` is `i - 1 - k`). Returns
`(done.take k, done[k])`: `js[j+1:i]` reversed, and `js[j]`. -/
def findOpener : Str → Option (Str × Char)
  | c0 :: c1 :: rest =>
    if c1 = '/' && c0 = '*' then some ([], c0)
    else (findOpener (c1 :: rest)).map (fun p => (c0 :: p.1, p.2))
  | _ => none

/-- One transition of the JS scanner: characters to emit (in order), the next
state, the escape flag, the tracked previous non-whitespace character, and
whether two input characters were consumed. -/
structure JsStepOut where
  emit : Str
  st : JMode
  esc : Bool
  pnw : Option Char
  two : Bool
deriving Repr

/-- The per-character transition of `_strip_js_comments_preserve_strings`.
`done` is the reversed consumed prefix (needed by the block-comment close
handler's backward scan), `nxt` is `js[i+1]` when present. The dead
`if js[i-2:i] == '/*' and ...: pass` statement at the top of the
block-comment branch has no effect and is not embedded. In the close
handler, `is_license` is Python's `js[j] == '!'` — `js[j]` being the `*`
of the found `/*` — and the license re-emission `'/*' + js[j+1:i] + '*/'`
is kept as written. -/
def jsStep (done : Str) (ch : Char) (nxt : Option Char) (st : JMode)
    (esc : Bool) (pnw : Option Char) : JsStepOut :=
  match st with
  | .out =>
    if ch = ' ' || ch = '\t' || ch = '\r' || ch = '\n' then
      ⟨[ch], .out, esc, pnw, false⟩
    else if ch = '/' && nxt = some '/' then ⟨[], .lineC, esc, pnw, true⟩
    else if ch = '/' && nxt = some '*' then ⟨[], .blockC, esc, pnw, true⟩
    else if ch = squoteChar then ⟨[ch], .squote, false, pnw, false⟩
    else if ch = '"' then ⟨[ch], .dquote, false, pnw, false⟩
    else if ch = backtickChar then ⟨[ch], .template, false, pnw, false⟩
    else if ch = '/' && is_regex_context pnw then ⟨[ch], .regex, false, pnw, false⟩
    else ⟨[ch], .out, esc, (if pyIsSpace ch then pnw else some ch), false⟩
  | .lineC =>
    if ch = '\r' || ch = '\n' then ⟨[ch], .out, esc, pnw, false⟩
    else ⟨[], .lineC, esc, pnw, false⟩
  | .blockC =>
    if ch = '*' && nxt = some '/' then
      match findOpener done with
      | some (btwRev, cAtJ) =>
        if cAtJ = '!' then
          ⟨'/' :: '*' :: btwRev.reverse ++ '*' :: '/' :: [], .out, esc, pnw, true⟩
        else ⟨[], .out, esc, pnw, true⟩
      | none => ⟨[], .out, esc, pnw, true⟩
    else ⟨[], .blockC, esc, pnw, false⟩
  | .squote =>
    ⟨[ch], (if !esc && ch = squoteChar then .out else .squote),
      (!esc && ch = backslashChar), pnw, false⟩
  | .dquote =>
    ⟨[ch], (if !esc && ch = '"' then .out else .dquote),
      (!esc && ch = backslashChar), pnw, false⟩
  | .template =>
    ⟨[ch], (if !esc && ch = backtickChar then .out else .template),
      (!esc && ch = backslashChar), pnw, false⟩
  | .regex =>
    ⟨[ch], (if !esc && ch = '/' then .out else .regex),
      (!esc && ch = backslashChar), pnw, false⟩

/-- The driving loop of the JS scanner. `accRev` is the reversed output.
The fuel argument only serves structural termination: it starts at the input
length and each step consumes one fuel and one or two input characters, so
the `0` case is never reached from the wrapper. The `true, []` arm is also
unreachable (a two-character consumption requires a next character); its
value is what the loop returns at end of input. -/
def jsAuxGo : Nat → Str → Str → JMode → Bool → Option Char → Str → Str
  | 0, _, _, _, _, _, accRev => accRev
  | _ + 1, _, [], _, _, _, accRev => accRev
  | fuel + 1, done, ch :: rest1, st, esc, pnw, accRev =>
    let r := jsStep done ch rest1.head? st esc pnw
    match r.two, rest1 with
    | true, nx :: rest2 =>
      jsAuxGo fuel (nx :: ch :: done) rest2 r.st r.esc r.pnw
        (r.emit.reverse ++ accRev)
    | true, [] => r.emit.reverse ++ accRev
    | false, _ =>
      jsAuxGo fuel (ch :: done) rest1 r.st r.esc r.pnw
        (r.emit.reverse ++ accRev)

/-- The script's `_strip_js_comments_preserve_strings`. -/
def strip_js_comments_preserve_strings (js : Str) : Str :=
  (jsAuxGo js.length [] js .out false none []).reverse

def collapse_ws_go : Nat → Str → Str
  | 0, l => l
  | _ + 1, [] => []
  | fuel + 1, '\n' :: rest =>
    (match rest.dropWhile (fun c => c = ' ' || c = '\t') with
      | '\n' :: rest3 =>
        if rest.takeWhile (fun c => c = ' ' || c = '\t') ≠ [] then
          '\n' :: '\n' :: collapse_ws_go fuel rest3
        else '\n' :: collapse_ws_go fuel rest
      | _ => '\n' :: collapse_ws_go fuel rest)
  | fuel + 1, c :: t => c :: collapse_ws_go fuel t

/-- `re.sub(r"\n[ \t]+\n", "\n\n", ...)`: collapse a line of blanks between
two newlines (scanning resumes after the consumed trailing newline, as
`re.sub` does). The fuel argument of `collapse_ws_go` only serves structural
termination; it starts at the input length and never falls below the
remaining length. -/
def collapseWsLines (l : Str) : Str := collapse_ws_go l.length l

def collapse_nl_go : Nat → Str → Str
  | 0, l => l
  | _ + 1, [] => []
  | fuel + 1, '\n' :: rest =>
    if (rest.takeWhile (fun c => c = '\n')).length + 1 ≥ 3 then
      '\n' :: '\n' :: collapse_nl_go fuel (rest.dropWhile (fun c => c = '\n'))
    else
      '\n' :: rest.takeWhile (fun c => c = '\n') ++
        collapse_nl_go fuel (rest.dropWhile (fun c => c = '\n'))
  | fuel + 1, c :: t => c :: collapse_nl_go fuel t

/-- `re.sub(r"\n{3,}", "\n\n", ...)`: a maximal run of three or more
newlines becomes exactly two. The fuel argument of `collapse_nl_go` only
serves structural termination. -/
def collapseNewlines (l : Str) : Str := collapse_nl_go l.length l

/-- The script's `minify_code`. -/
def minify_code (content : Str) (filetype : Str) : Str :=
  let c1 :=
    if filetype = "html".toList || filetype = "htm".toList then
      strip_html_comments_but_keep_conditionals content
    else if filetype = "css".toList then strip_css_comments_keep_licenses content
    else if filetype = "js".toList then strip_js_comments_preserve_strings content
    else content
  pyStrip (collapseNewlines (collapseWsLines c1))

/-- The per-file behaviour of `run_minification`: `some newContent` when the
file is rewritten on disk, `none` when it is left untouched (skipped
extension, `.min.*` name, unchanged result, or a result that is empty after
trimming). -/
def run_minification_file (fname content : Str) : Option Str :=
  let ext := lowerStr (splitextExt fname)
  if !memS [".html".toList, ".htm".toList, ".css".toList, ".js".toList] ext then
    none
  else if endsWithStr ".min.css".toList (lowerStr fname) ||
      endsWithStr ".min.js".toList (lowerStr fname) then none
  else
    let kind :=
      if ext = ".html".toList || ext = ".htm".toList then "html".toList
      else if ext = ".css".toList then "css".toList
      else "js".toList
    let minimized := minify_code content kind
    if minimized ≠ content && pyStrip minimized ≠ [] then some minimized else none

/-! ### Spec-side definitions (formalisations of the spec's own wording,
to be compared with the source embeddings) -/

/-- The host of a reference as the spec speaks of it: the netloc of the
parsed URL, case-folded. -/
def host_of (url : Str) : Str := lowerStr (urlsplitPy url).netloc

/-- The spec's same-site criterion: the host equals the base host or is a
subdomain of it under dot-boundary suffix matching. -/
def dot_boundary_same_site (baseHost h : Str) : Bool :=
  h = lowerStr baseHost || endsWithStr ('.' :: lowerStr baseHost) h

/-- The heuristic cascade exactly as the claim words it: (i) `p` itself;
(ii) `p + "index.html"` if `p` ends in `/`; (iii) `p + "/index.html"` if
`p`'s last segment has no extension (read, as in the source, as: contains no
dot); (iv) `p + ".html"` if `p` does not already end in `".html"`
(case-insensitively, matching the spec's case-insensitive lookups). -/
def specVariants (p : Str) (fileMap : List Str) : Option Str :=
  if memS fileMap p then some p
  else if endsWithStr ['/'] p && memS fileMap (p ++ indexHtmlS) then
    some (p ++ indexHtmlS)
  else if !containsChar '.' (posix_basename p) &&
      memS fileMap (p ++ '/' :: indexHtmlS) then some (p ++ '/' :: indexHtmlS)
  else if !endsWithStr dotHtmlS (lowerStr p) && memS fileMap (p ++ dotHtmlS) then
    some (p ++ dotHtmlS)
  else none

/-- The claim's prefix-stripping retry: strip up to 2 leading segments, one
at a time cumulatively, retrying the full cascade each time. -/
def specStripLoop (parts : List Str) (fileMap : List Str) (cut stop : Nat) :
    Option Str :=
  if cut > stop then none
  else
    match specVariants (joinChar '/' (parts.drop cut)) fileMap with
    | some h => some h
    | none => specStripLoop parts fileMap (cut + 1) stop
termination_by stop + 1 - cut
decreasing_by omega

/-- The whole resolution procedure as the claim describes it. -/
def specResolve (p : Str) (fileMap : List Str) : Option Str :=
  match specVariants p fileMap with
  | some h => some h
  | none =>
    let parts := (splitCharAll '/' p).filter (fun x => x ≠ [])
    specStripLoop parts fileMap 1 (min maxStripSegments parts.length)

/-- Well-formedness of a literal's body for the scanner's escape discipline:
no unescaped closing delimiter occurs inside, and the body does not end
escaped (so the closing delimiter that follows actually closes). -/
def litOkAux (delim : Char) : Bool → Str → Bool
  | esc, [] => !esc
  | esc, c :: t =>
    if !esc && c = delim then false
    else litOkAux delim (!esc && c = backslashChar) t

/-- `litOkAux` from the unescaped initial state. -/
def litOk (delim : Char) (text : Str) : Bool := litOkAux delim false text

/-- The closing delimiter of each literal-carrying scanner state. -/
def delimOfMode : JMode → Char
  | .squote => squoteChar
  | .dquote => '"'
  | .template => backtickChar
  | .regex => '/'
  | _ => ' '

/-- The scanner state entered from code state at a quote character. -/
def modeOfQuote (q : Char) : JMode :=
  if q = squoteChar then .squote else if q = '"' then .dquote else .template

/-! ### Embedding of `find_domain_root` and the top-level control flow -/

/-- A directory tree in `os.walk` order: `(relative path, filenames)` per
directory, the walk root (relative path `"."`) first. -/
abbrev WalkTree := List (Str × List Str)

/-- Whether a directory's file list contains an index page
(`"index.html" in lower or "index.htm" in lower`). -/
def hasIndexFile (files : List Str) : Bool :=
  files.any (fun f => lowerStr f = indexHtmlS) ||
    files.any (fun f => lowerStr f = indexHtmS)

/-- `sum(1 for f in files if f.lower().endswith((".html", ".htm")))`. -/
def htmlCount (files : List Str) : Nat :=
  (files.filter (fun f =>
    endsWithStr ".html".toList (lowerStr f) ||
      endsWithStr ".htm".toList (lowerStr f))).length

/-- `len(os.path.relpath(root, site_dir).split(os.sep))`: the walk root
itself has relative path `"."`, hence depth 1. -/
def walkDepth (rel : Str) : Nat := (splitCharAll '/' rel).length

/-- Strict comparison of the sort keys `(depth, -html_count)`. -/
def candKeyLt (a b : Str × List Str) : Bool :=
  walkDepth a.1 < walkDepth b.1 ||
    (walkDepth a.1 = walkDepth b.1 && htmlCount b.2 < htmlCount a.2)

/-- First minimum of the candidate list under the `(depth, -html_count)` key:
what `candidates.sort(...); candidates[0]` selects (Python's sort is stable,
so the earliest element in walk order wins ties). -/
def pickBest (best : Str × List Str) : WalkTree → Str × List Str
  | [] => best
  | e :: t => if candKeyLt e best then pickBest e t else pickBest best t

/-- The script's `find_domain_root` over the walk model: the root directory
itself when it holds an index page, otherwise the best candidate directory
containing one, otherwise `None`. -/
def find_domain_root (tree : WalkTree) : Option Str :=
  match tree with
  | [] => none
  | rootEntry :: _ =>
    if hasIndexFile rootEntry.2 then some rootEntry.1
    else
      match tree.filter (fun e => hasIndexFile e.2) with
      | [] => none
      | c :: cs => some (pickBest c cs).1

/-- The script's `prepare_site_structure`, at the level of its control flow:
`raise RuntimeError(...)` when `find_domain_root` returns `None`, success
otherwise (the merge and trash-deletion work it then performs is filesystem
I/O with no failure path of its own in the model). -/
def prepare_site_structure (tree : WalkTree) : Except String Unit :=
  match find_domain_root tree with
  | none => Except.error "domain root not found"
  | some _ => Except.ok ()

/-- The module-level donor-directory precondition: exactly one candidate
directory next to the script, else `SystemExit(1)` before any mutation.
`candidates` is the already-filtered listing (`site`/`__pycache__` removed). -/
def donor_check (candidates : List Str) : Except String Unit :=
  if candidates.length ≠ 1 then Except.error "need exactly one donor directory"
  else Except.ok ()

/-- The pipeline stages that run after `prepare_site_structure("site")` in
module order. Their bodies guard per-file work with try/except (or only
perform writes, whose I/O failures are outside the model), so in the model
they always complete. -/
def laterStages : List String :=
  ["remove_empty_dirs", "robots_sitemap", "clean_html", "minify"]

/-- The top-level control flow from the `prepare_site_structure("site")` call
onward: its uncaught `RuntimeError` aborts every later stage; otherwise all
later stages run. Returns the list of completed later stages. -/
def pipeline_tail (tree : WalkTree) : Except String (List String) :=
  match prepare_site_structure tree with
  | Except.error e => Except.error e
  | Except.ok _ => Except.ok laterStages

/-- The text `repl_url`/`repl_import` work on after Python's
`.strip().strip('"\'')`: the regex group with whitespace and quotes trimmed. -/
def inside_of (g : Str) : Str := pyStripChars quoteChars (pyStrip g)

/-- The cleaned reference `repl_url` looks up: wayback-stripped, then
fragment- and query-stripped. -/
def clean_of (g : Str) : Str :=
  let c1 := strip_wayback (inside_of g)
  let c2 := match splitCharOnce '#' c1 with
    | some (a, _) => a
    | none => c1
  match splitCharOnce '?' c2 with
  | some (a, _) => a
  | none => c2

/-- The textual fragment part of a URL: empty, or `#` followed by the
fragment. -/
def fragPartOf (frag : Option Str) : Str :=
  match frag with
  | none => []
  | some f => '#' :: f

/-- A well-formed absolute http(s) URL as the round-trip property quantifies
over it: scheme, opaque remainder, optional fragment. -/
def mkAbsUrl (sec : Bool) (r : Str) (frag : Option Str) : Str :=
  (if sec then httpsSlashesS else httpSlashesS) ++ r ++ fragPartOf frag

/-- The survivor projection of `dedupe_go`'s loop (same branch structure,
carrying only the kept filenames); used to reason about `dedupe_folder`. -/
def survGo : List (Str × Str) → List (Str × Str) → List Str
  | _, [] => []
  | seen, (fname, h) :: rest =>
    match assocGet seen h with
    | none => fname :: survGo (assocSet seen h fname) rest
    | some _ => survGo seen rest

/-- The mapping projection of `dedupe_go`'s loop (same branch structure,
carrying only the dict updates); used to reason about `dedupe_folder`. -/
def mapGo (pfx : Str) : List (Str × Str) → List (Str × Str) →
    List (Str × Str) → List (Str × Str)
  | _, m, [] => m
  | seen, m, (fname, h) :: rest =>
    match assocGet seen h with
    | none => mapGo pfx (assocSet seen h fname) m rest
    | some canon =>
      mapGo pfx seen
        (assocSet m (lowerStr fname) (norm_slashes (posix_join pfx canon))) rest


/-- Case-insensitive test for the literal head of the url pattern of
`css_rewrite_paths`' second pass (the characters `url` in either case
followed by an opening parenthesis) at the current scan position. -/
def isUrlOpen : Str → Bool
  | a :: b :: c :: d :: _ =>
    a.toLower = 'u' && b.toLower = 'r' && c.toLower = 'l' && d = '('
  | _ => false

/-- The lazy group of the url pattern followed by its literal closing
parenthesis: the shortest run of non-newline characters up to the first `)`
(the regex dot does not match a newline, so a newline before any `)` makes
the match at this position fail, and so does running out of text). Returns
the group text and the text after the closing parenthesis. -/
def grabGroup : Str → Option (Str × Str)
  | [] => none
  | c :: rest =>
    if c = ')' then some ([], rest)
    else if c = '\n' then none
    else (grabGroup rest).map (fun p => (c :: p.1, p.2))

/-- The second pass of `css_rewrite_paths`, the global IGNORECASE
url-pattern substitution with `repl_url`: a left-to-right scan that, at each
match, hands group 1 and the originally-cased whole match to `repl_url` and
resumes after the closing parenthesis, and otherwise moves one character on.
The fuel only bounds the recursion; `subUrl` supplies the text length, which
the at-least-one-character progress per step never exhausts (the `0` case is
unreachable there). -/
def subUrlGo (imgMap fontMap : List (Str × Str)) (cssDir : Str) :
    Nat → Str → Str
  | 0, t => t
  | _ + 1, [] => []
  | fuel + 1, c :: rest =>
    if isUrlOpen (c :: rest) then
      match grabGroup ((c :: rest).drop 4) with
      | some (g, after) =>
        repl_url imgMap fontMap cssDir g ((c :: rest).take (5 + g.length)) ++
          subUrlGo imgMap fontMap cssDir fuel after
      | none => c :: subUrlGo imgMap fontMap cssDir fuel rest
    else c :: subUrlGo imgMap fontMap cssDir fuel rest

/-- `re.sub` of the url pattern with `repl_url` over a whole text, as
`css_rewrite_paths` runs it on the output of its `@import` pass. -/
def subUrl (imgMap fontMap : List (Str × Str)) (cssDir txt : Str) : Str :=
  subUrlGo imgMap fontMap cssDir txt.length txt

/-- The first (`@import`) pass of `css_rewrite_paths` on a text that is a
single url-form import statement, `@import url(X);`, where `X` is free of
parentheses, quote characters, whitespace and newlines: the import pattern
then has exactly one match, the whole statement, its optional-quote and
whitespace parts matching empty so that group 1 is exactly `X`, and the
pass output is `repl_import`'s replacement for that match. -/
def subImportSingleUrlForm (cssMap : List (Str × Str)) (cssDir X : Str) :
    Str :=
  repl_import cssMap cssDir X
    ("@import url(".toList ++ X ++ ')' :: [';'])

/-- Both passes of `css_rewrite_paths` (the `@import` substitution, then the
url substitution over its output) on a text that is a single url-form import
statement. -/
def css_two_pass_on_import (cssMap imgMap fontMap : List (Str × Str))
    (cssDir X : Str) : Str :=
  subUrl imgMap fontMap cssDir (subImportSingleUrlForm cssMap cssDir X)

/-!
## Theorems

First the closed evaluations settling the refuted claims, then the helper
lemmas and the universally quantified theorems.
-/

/-- C1: the claim says a `/*! ... */` comment is retained verbatim by both
the stylesheet and the script minifier. The stylesheet side holds, but the
script scanner drops the license comment: its close handler tests
`js[j] == '!'` where `js[j]` is the `*` of the opening `/*` it just located
(the intended test is `js[j+1] == '!'`, the character the re-emission
`'/*' + js[j+1:i] + '*/'` starts from), so `is_license` is always false and
the entire comment, delimiters included, is deleted from `.js` content. -/
theorem c1_license_comment_dropped_in_js_kept_in_css :
    strip_css_comments_keep_licenses "/*! keep me */ /* drop me */".toList
      = "/*! keep me */ ".toList ∧
    strip_js_comments_preserve_strings "/*! keep me */ var x = 1;".toList
      = " var x = 1;".toList ∧
    containsSeq "/*! keep me */".toList
      (strip_js_comments_preserve_strings "/*! keep me */ var x = 1;".toList)
      = false := by
  refine ⟨?_, ?_, ?_⟩ <;> decide

/-- C2 counterexample: a `url(...)` reference that resolves in no resource
map (all maps empty) is not left byte-for-byte verbatim — the query suffix
is stripped and the construct is rewritten to the cleaned text. -/
theorem c2_unresolved_url_reference_rewritten :
    repl_url [] [] "assets/css".toList "foo.png?v=2".toList
      "url(foo.png?v=2)".toList = "url(foo.png)".toList ∧
    "url(foo.png)".toList ≠ "url(foo.png?v=2)".toList := by
  refine ⟨?_, ?_⟩ <;> decide

/-- C3 counterexample: `strip(wrap(u, t))` loses `u`'s query component —
`strip_wayback` re-appends the parsed fragment but never the parsed query. -/
theorem c3_roundtrip_fails_with_query :
    strip_wayback (wrapWayback "http://ex.com/a?q=1".toList "2020".toList)
      = "http://ex.com/a".toList ∧
    "http://ex.com/a".toList ≠ "http://ex.com/a?q=1".toList := by
  refine ⟨?_, ?_⟩ <;> decide

/-- C4 counterexample: eligibility is a case-insensitive *substring* test of
the entered domain string, not a dot-boundary host comparison: under base
host `site.example`, the cross-site reference
`https://evilsite.example/page.html` (host `evilsite.example`, which neither
equals `site.example` nor is a dot-boundary subdomain of it) is resolved and
rewritten to the local `page.html`. -/
theorem c4_cross_site_reference_resolved :
    rewrite_attr_decision "site.example".toList ["page.html".toList]
      "https://evilsite.example/page.html".toList
      = some ("page.html".toList, []) ∧
    dot_boundary_same_site "site.example".toList
      (host_of "https://evilsite.example/page.html".toList) = false := by
  refine ⟨?_, ?_⟩ <;> decide

/-- C5 counterexample: `aa.css` and `b%20c.css` share a digest; after
`dedupe_folder` only `aa.css` remains, but the deleted file's original
normalized key `b c.css` (inserted by `map_put` during the asset move, with
percent-escapes decoded) still resolves to the deleted
`assets/css/b%20c.css` — the dedup pass only remaps the raw lowercased
listing name `b%20c.css`. -/
theorem c5_normalized_key_left_stale :
    (dedupe_folder
        [("aa.css".toList, "h1".toList), ("b%20c.css".toList, "h1".toList)]
        "assets/css".toList
        (map_put (map_put [] "aa.css".toList "assets/css/aa.css".toList)
          "b%20c.css".toList "assets/css/b%20c.css".toList)).1
      = ["aa.css".toList] ∧
    assocGet
      (dedupe_folder
        [("aa.css".toList, "h1".toList), ("b%20c.css".toList, "h1".toList)]
        "assets/css".toList
        (map_put (map_put [] "aa.css".toList "assets/css/aa.css".toList)
          "b%20c.css".toList "assets/css/b%20c.css".toList)).2
      "b c.css".toList = some "assets/css/b%20c.css".toList ∧
    "assets/css/b%20c.css".toList ≠ "assets/css/aa.css".toList := by
  refine ⟨?_, ?_, ?_⟩ <;> decide

/-- C7 counterexample: `var r = /[/"]/; x = "a//b";` contains the genuine
double-quoted string literal `"a//b"` (the regex literal `/[/"]/` carries an
unescaped `/` inside its character class, which ECMAScript permits), yet the
scanner closes the regex at that inner `/`, treats the real string's opening
quote as a closing quote, and then reads `//b";` as a line comment — the
literal's text `a//b` does not survive minification. -/
theorem c7_literal_destroyed_after_regex_class :
    containsSeq "\"a//b\"".toList "var r = /[/\"]/; x = \"a//b\";".toList
      = true ∧
    strip_js_comments_preserve_strings
      "var r = /[/\"]/; x = \"a//b\";".toList
      = "var r = /[/\"]/; x = \"a".toList ∧
    containsSeq "a//b".toList
      (strip_js_comments_preserve_strings
        "var r = /[/\"]/; x = \"a//b\";".toList) = false := by
  refine ⟨?_, ?_, ?_⟩ <;> decide

/-- C9 counterexample: on a tree with no index page anywhere (a donor whose
pages are all non-index files), `find_domain_root` returns `None`, the
uncaught `RuntimeError` of `prepare_site_structure` fires in the middle of
the pipeline — after consolidation, rewriting and CSS passes have already
mutated the tree — and every later stage (empty-dir pruning, robots/sitemap,
HTML cleanup, minification) is aborted. The claim's "the only fatal abort
occurs at startup" is false. -/
theorem c9_missing_domain_root_aborts_pipeline :
    find_domain_root [(".".toList, ["home.html".toList])] = none ∧
    pipeline_tail [(".".toList, ["home.html".toList])]
      = Except.error "domain root not found" := by
  exact ⟨by decide, rfl⟩

/-- C10: the minification pass writes a file back only when the minified
content differs from the original and is nonempty after trimming whitespace
(so an empty or whitespace-only result leaves the file untouched), and files
named `*.min.css` / `*.min.js` are never minified at all. -/
theorem c10_minification_write_guard :
    (∀ fname content out, run_minification_file fname content = some out →
      out ≠ content ∧ pyStrip out ≠ []) ∧
    (∀ fname content,
      (endsWithStr ".min.css".toList (lowerStr fname) ||
        endsWithStr ".min.js".toList (lowerStr fname)) = true →
      run_minification_file fname content = none) := by
  constructor
  · intro fname content out h
    have key : ∀ m : Str,
        (if (decide (m ≠ content) && decide (pyStrip m ≠ [])) = true then
          some m else none) = some out →
        out ≠ content ∧ pyStrip out ≠ [] := by
      intro m hm
      split at hm
      · rename_i hc
        cases hm
        simpa using hc
      · exact absurd hm (by simp)
    simp only [run_minification_file] at h
    split at h
    · exact absurd h (by simp)
    split at h
    · exact absurd h (by simp)
    exact key _ h
  · intro fname content h
    simp only [run_minification_file]
    split_ifs with h1 h2
    all_goals first
    | rfl
    | exact absurd h h2

/-- Witness for `c10_minification_write_guard` at concrete inputs: a `.css`
file whose content minifies to `a` is rewritten (and the guard holds), and a
`.min.css` file is never minified. -/
theorem c10_minification_write_guard_witness :
    ("a".toList ≠ "/* c */a".toList ∧ pyStrip "a".toList ≠ []) ∧
    run_minification_file "x.min.css".toList "/* c */a".toList = none :=
  ⟨c10_minification_write_guard.1 "x.css".toList "/* c */a".toList "a".toList
      (by decide),
   c10_minification_write_guard.2 "x.min.css".toList "/* c */a".toList
      (by decide)⟩

/-- C8: an attribute value that is empty, a pure fragment, or carries one of
the non-navigable schemes `mailto: tel: javascript: data: blob: about:`
(case-insensitively) is never resolved or rewritten by `rewrite_attr` —
the decision is unconditionally "leave unchanged". -/
theorem c8_skip_schemes_never_resolved
    (domainFull : Str) (fileMap : List Str) (val : Str)
    (h : val = [] ∨ startsWithStr ['#'] val = true ∨
      ((["mailto:", "tel:", "javascript:", "data:", "blob:",
        "about:"].map String.toList).any
          (fun p => startsWithStr p (lowerStr val))) = true) :
    rewrite_attr_decision domainFull fileMap val = none := by
  have hskip : should_skip_scheme val = true := by
    unfold should_skip_scheme
    rcases h with h | h | h
    · simp [h]
    · simp [h]
    · split
      · rfl
      · simp only [List.map_cons, List.map_nil, List.any_cons, List.any_nil,
          Bool.or_eq_true, Bool.or_false] at h
        simp only [Bool.or_eq_true]
        rcases h with h | h | h | h | h | h
        · exact Or.inl (Or.inl (Or.inl (Or.inl (Or.inl h))))
        · exact Or.inl (Or.inl (Or.inl (Or.inl (Or.inr h))))
        · exact Or.inl (Or.inl (Or.inl (Or.inr h)))
        · exact Or.inl (Or.inl (Or.inr h))
        · exact Or.inl (Or.inr h)
        · exact Or.inr h
  by_cases hv : val = []
  · simp [rewrite_attr_decision, hv]
  · simp [rewrite_attr_decision, hv, hskip]

/-- Witness for `c8_skip_schemes_never_resolved`: an uppercase `MAILTO:`
value is left unresolved even when the file index could satisfy it. -/
theorem c8_skip_schemes_never_resolved_witness :
    rewrite_attr_decision "site.example".toList ["index.html".toList]
      "MAILTO:someone@site.example".toList = none :=
  c8_skip_schemes_never_resolved "site.example".toList ["index.html".toList]
    "MAILTO:someone@site.example".toList (Or.inr (Or.inr (by decide)))

/-- C4 amended: same-site eligibility in `rewrite_attr` is a case-insensitive
substring test of the entered domain string against the attribute value
(followed by path extraction), not a host comparison; in particular any
reference in which the entered domain string does not occur as a substring is
always left unresolved. -/
theorem c4_no_substring_never_resolved
    (domainFull : Str) (fileMap : List Str) (val : Str)
    (h : containsSeq (lowerStr domainFull) (lowerStr val) = false) :
    rewrite_attr_decision domainFull fileMap val = none := by
  by_cases hv : val = []
  · simp [rewrite_attr_decision, hv]
  by_cases hs : should_skip_scheme val = true
  · simp [rewrite_attr_decision, hv, hs]
  · simp [rewrite_attr_decision, hv, hs, h]

/-- Witness for `c4_no_substring_never_resolved`: the spec's own cross-site
example `https://evil.example/x` under base host `site.example` is left
unresolved. -/
theorem c4_no_substring_never_resolved_witness :
    rewrite_attr_decision "site.example".toList ["x.html".toList]
      "https://evil.example/x".toList = none :=
  c4_no_substring_never_resolved "site.example".toList ["x.html".toList]
    "https://evil.example/x".toList (by decide)

/-- C9 amended: the fatal abort points of the pipeline are the startup
donor-directory precondition and, additionally, `prepare_site_structure`'s
uncaught missing-domain-root error in mid-pipeline, which aborts every later
stage; when a domain root exists, all later stages complete. -/
theorem c9_abort_points :
    (∀ cands, donor_check cands = Except.ok () ↔ cands.length = 1) ∧
    (∀ tree, find_domain_root tree = none →
      pipeline_tail tree = Except.error "domain root not found") ∧
    (∀ tree root, find_domain_root tree = some root →
      pipeline_tail tree = Except.ok laterStages) := by
  refine ⟨?_, ?_, ?_⟩
  · intro cands
    unfold donor_check
    constructor
    · intro h
      by_contra hne
      simp [hne] at h
    · intro h
      simp [h]
  · intro tree h
    simp [pipeline_tail, prepare_site_structure, h]
  · intro tree root h
    simp [pipeline_tail, prepare_site_structure, h]

/-- Witness for `c9_abort_points` at concrete inputs: one donor directory
passes the startup check, and a tree whose root holds `index.html` runs
every later stage. -/
theorem c9_abort_points_witness :
    donor_check ["donor".toList] = Except.ok () ∧
    pipeline_tail [(".".toList, ["index.html".toList])]
      = Except.ok laterStages :=
  ⟨(c9_abort_points.1 ["donor".toList]).mpr rfl,
   c9_abort_points.2.2 [(".".toList, ["index.html".toList])] ".".toList rfl⟩

/-! ### List helper lemmas for the URL-parsing proofs -/

theorem splitCharOnce_not_mem {c : Char} : ∀ {l : Str}, c ∉ l →
    splitCharOnce c l = none := by
  intro l
  induction l with
  | nil => intro _; rfl
  | cons x t ih =>
    intro h
    have hx : ¬(x = c) := fun he => h (by simp [he])
    have ht : c ∉ t := fun hm => h (List.mem_cons_of_mem _ hm)
    simp [splitCharOnce, hx, ih ht]

theorem splitCharOnce_append {c : Char} : ∀ {a : Str} (b : Str), c ∉ a →
    splitCharOnce c (a ++ c :: b) = some (a, b) := by
  intro a
  induction a with
  | nil => intro b _; simp [splitCharOnce]
  | cons x t ih =>
    intro b h
    have hx : ¬(x = c) := fun he => h (by simp [he])
    have ht : c ∉ t := fun hm => h (List.mem_cons_of_mem _ hm)
    simp [splitCharOnce, hx, ih b ht]

theorem takeWhile_append_stop {p : Char → Bool} :
    ∀ {a : Str} (b0 : Char) (bs : Str), (∀ x ∈ a, p x = true) → p b0 = false →
    (a ++ b0 :: bs).takeWhile p = a ∧ (a ++ b0 :: bs).dropWhile p = b0 :: bs := by
  intro a
  induction a with
  | nil =>
    intro b0 bs _ hb
    simp [List.takeWhile, List.dropWhile, hb]
  | cons x t ih =>
    intro b0 bs ha hb
    have hx : p x = true := ha x (by simp)
    have ht : ∀ y ∈ t, p y = true := fun y hy => ha y (by simp [hy])
    have := ih b0 bs ht hb
    simp [List.takeWhile, List.dropWhile, hx, this.1, this.2]

theorem containsChar_of_mem {c : Char} {l : Str} (h : c ∈ l) :
    containsChar c l = true := by
  simp [containsChar, List.any_eq_true]
  exact h

theorem isPrefixOf_append {a b : Str} : a.isPrefixOf (a ++ b) = true := by
  induction a with
  | nil => simp [List.isPrefixOf]
  | cons x t ih => simpa [List.isPrefixOf] using ih

theorem containsSeq_of_isPrefixOf {n l : Str} (h : n.isPrefixOf l = true) :
    containsSeq n l = true := by
  cases l with
  | nil =>
    cases n with
    | nil => rfl
    | cons x t => simp [List.isPrefixOf] at h
  | cons c t => simp [containsSeq, h]

theorem splitSeqOnce_prefix {sep x : Str} (h : sep ≠ []) :
    splitSeqOnce sep (sep ++ x) = some ([], x) := by
  have hpre : sep.isPrefixOf (sep ++ x) = true := isPrefixOf_append
  have hfind : findSeqIdx sep (sep ++ x) = some 0 := by
    cases sep with
    | nil => exact absurd rfl h
    | cons s0 s' =>
      rw [List.cons_append]
      unfold findSeqIdx
      rw [← List.cons_append]
      simp [hpre]
  unfold splitSeqOnce
  rw [hfind]
  simp [List.drop_left]

theorem removeUnsafe_eq_self {l : Str}
    (h : ∀ x ∈ l, ¬(x = '\t' ∨ x = '\r' ∨ x = '\n')) : removeUnsafe l = l := by
  unfold removeUnsafe
  rw [List.filter_eq_self]
  intro a ha
  have h2 := h a ha
  push_neg at h2
  simp [h2.1, h2.2.1, h2.2.2]

theorem urlparse_wrapped (t base fragPart : Str)
    (ht : '/' ∉ t ∧ '?' ∉ t ∧ '#' ∉ t ∧ ';' ∉ t ∧ '\t' ∉ t ∧ '\r' ∉ t ∧ '\n' ∉ t)
    (hb : '?' ∉ base ∧ '#' ∉ base ∧ ';' ∉ base ∧ '\t' ∉ base ∧ '\r' ∉ base ∧
      '\n' ∉ base)
    (hfp : fragPart = [] ∨ ∃ f, fragPart = '#' :: f ∧ '\t' ∉ f ∧ '\r' ∉ f ∧
      '\n' ∉ f) :
    urlparsePy (wrapWayback (base ++ fragPart) t) =
      ⟨"https".toList, "web.archive.org".toList,
       "/web/".toList ++ (t ++ '/' :: base), [], fragPart.tail⟩ := by
  obtain ⟨ht1, ht2, ht3, ht0, ht4, ht5, ht6⟩ := ht
  obtain ⟨hb1, hb2, hb3, hb4, hb5, hb6⟩ := hb
  have hquery : splitCharOnce '?' ('/' :: 'w' :: 'e' :: 'b' :: '/' :: (t ++ '/' :: base))
      = none := by
    apply splitCharOnce_not_mem
    intro hc
    simp at hc
    rcases hc with h | h
    · exact ht2 h
    · exact hb1 h
  have hsemi : containsChar ';'
      ('/' :: 'w' :: 'e' :: 'b' :: '/' :: (t ++ '/' :: base)) = false := by
    rw [Bool.eq_false_iff]
    intro hex
    simp only [containsChar, List.any_eq_true, decide_eq_true_eq] at hex
    obtain ⟨x, hx, rfl⟩ := hex
    simp at hx
    rcases hx with h | h
    · exact ht0 h
    · exact hb3 h
  rcases hfp with rfl | ⟨f, rfl, hf1, hf2, hf3⟩
  · have hclean : removeUnsafe (wrapWayback (base ++ []) t)
        = wrapWayback (base ++ []) t := by
      apply removeUnsafe_eq_self
      have hdec : wrapWayback (base ++ []) t
          = "https://web.archive.org/web/".toList ++
            (t ++ '/' :: (base ++ [])) := rfl
      intro x hx
      rw [hdec] at hx
      rintro (rfl | rfl | rfl)
      · simp at hx
        rcases hx with h | h
        · exact ht4 h
        · exact hb4 h
      · simp at hx
        rcases hx with h | h
        · exact ht5 h
        · exact hb5 h
      · simp at hx
        rcases hx with h | h
        · exact ht6 h
        · exact hb6 h
    have hsch : schemeSplit (wrapWayback (base ++ []) t)
        = ("https".toList,
           '/' :: '/' :: ("web.archive.org".toList ++
             '/' :: ('w' :: 'e' :: 'b' :: '/' :: (t ++ '/' :: (base ++ []))))) := by
      have hw : wrapWayback (base ++ []) t
          = ['h', 't', 't', 'p', 's'] ++ ':' ::
            ('/' :: '/' :: ("web.archive.org".toList ++
              '/' :: ('w' :: 'e' :: 'b' :: '/' :: (t ++ '/' :: (base ++ []))))) := rfl
      unfold schemeSplit
      rw [hw, splitCharOnce_append _ (by decide)]
      simp [isSchemeChar, lowerStr]
    have hnet : netlocSplit ('/' :: '/' :: ("web.archive.org".toList ++
          '/' :: ('w' :: 'e' :: 'b' :: '/' :: (t ++ '/' :: (base ++ [])))))
        = ("web.archive.org".toList,
           '/' :: 'w' :: 'e' :: 'b' :: '/' :: (t ++ '/' :: (base ++ []))) := by
      simp [netlocSplit, startsWithStr, List.isPrefixOf, netlocStop]
    have hfrag : splitCharOnce '#'
          ('/' :: 'w' :: 'e' :: 'b' :: '/' :: (t ++ '/' :: (base ++ [])))
        = none := by
      apply splitCharOnce_not_mem
      intro hc
      simp at hc
      rcases hc with h | h
      · exact ht3 h
      · exact hb2 h
    have hq2 : splitCharOnce '?'
        ('/' :: 'w' :: 'e' :: 'b' :: '/' :: (t ++ '/' :: (base ++ []))) = none := by
      rw [List.append_nil]
      exact hquery
    simp only [urlparsePy, urlsplitPy, hclean, hsch, hnet, hfrag, hq2]
    simp [hsemi]
  · have hclean : removeUnsafe (wrapWayback (base ++ '#' :: f) t)
        = wrapWayback (base ++ '#' :: f) t := by
      apply removeUnsafe_eq_self
      have hdec : wrapWayback (base ++ '#' :: f) t
          = "https://web.archive.org/web/".toList ++
            (t ++ '/' :: (base ++ '#' :: f)) := rfl
      intro x hx
      rw [hdec] at hx
      rintro (rfl | rfl | rfl)
      · simp at hx
        rcases hx with h | h | h
        · exact ht4 h
        · exact hb4 h
        · exact hf1 h
      · simp at hx
        rcases hx with h | h | h
        · exact ht5 h
        · exact hb5 h
        · exact hf2 h
      · simp at hx
        rcases hx with h | h | h
        · exact ht6 h
        · exact hb6 h
        · exact hf3 h
    have hsch : schemeSplit (wrapWayback (base ++ '#' :: f) t)
        = ("https".toList,
           '/' :: '/' :: ("web.archive.org".toList ++
             '/' :: ('w' :: 'e' :: 'b' :: '/' :: (t ++ '/' :: (base ++ '#' :: f))))) := by
      have hw : wrapWayback (base ++ '#' :: f) t
          = ['h', 't', 't', 'p', 's'] ++ ':' ::
            ('/' :: '/' :: ("web.archive.org".toList ++
              '/' :: ('w' :: 'e' :: 'b' :: '/' :: (t ++ '/' :: (base ++ '#' :: f))))) := rfl
      unfold schemeSplit
      rw [hw, splitCharOnce_append _ (by decide)]
      simp [isSchemeChar, lowerStr]
    have hnet : netlocSplit ('/' :: '/' :: ("web.archive.org".toList ++
          '/' :: ('w' :: 'e' :: 'b' :: '/' :: (t ++ '/' :: (base ++ '#' :: f)))))
        = ("web.archive.org".toList,
           '/' :: 'w' :: 'e' :: 'b' :: '/' :: (t ++ '/' :: (base ++ '#' :: f))) := by
      simp [netlocSplit, startsWithStr, List.isPrefixOf, netlocStop]
    have hfrag : splitCharOnce '#'
          ('/' :: 'w' :: 'e' :: 'b' :: '/' :: (t ++ '/' :: (base ++ '#' :: f)))
        = some ('/' :: 'w' :: 'e' :: 'b' :: '/' :: (t ++ '/' :: base), f) := by
      have hshape : '/' :: 'w' :: 'e' :: 'b' :: '/' :: (t ++ '/' :: (base ++ '#' :: f))
          = ('/' :: 'w' :: 'e' :: 'b' :: '/' :: (t ++ '/' :: base)) ++ '#' :: f := by
        simp
      rw [hshape]
      apply splitCharOnce_append
      intro hc
      simp at hc
      rcases hc with h | h
      · exact ht3 h
      · exact hb2 h
    simp only [urlparsePy, urlsplitPy, hclean, hsch, hnet, hfrag, hquery]
    simp [hsemi]

/-- C3 amended: the archive-wrapper round trip holds for every absolute
http(s) URL without a query component (no `?`, `;`, tab/CR/LF in its
remainder; nonempty tab/CR/LF-free fragment if present) and every timestamp
string free of `/`, `?`, `#`, `;` and tab/CR/LF. The query-carrying case is
refuted by `c3_roundtrip_fails_with_query`. -/
theorem c3_strip_wrap_roundtrip_no_query (sec : Bool) (r t : Str)
    (frag : Option Str)
    (hr : '?' ∉ r ∧ '#' ∉ r ∧ ';' ∉ r ∧ '\t' ∉ r ∧ '\r' ∉ r ∧ '\n' ∉ r)
    (ht : '/' ∉ t ∧ '?' ∉ t ∧ '#' ∉ t ∧ ';' ∉ t ∧ '\t' ∉ t ∧ '\r' ∉ t ∧
      '\n' ∉ t)
    (hf : ∀ f, frag = some f → f ≠ [] ∧ '\t' ∉ f ∧ '\r' ∉ f ∧ '\n' ∉ f) :
    strip_wayback (wrapWayback (mkAbsUrl sec r frag) t) = mkAbsUrl sec r frag := by
  obtain ⟨hr1, hr2, hr3, hr4, hr5, hr6⟩ := hr
  have hschemeMem : ∀ x ∈ (if sec then httpsSlashesS else httpSlashesS),
      ¬(x = '?' ∨ x = '#' ∨ x = ';' ∨ x = '\t' ∨ x = '\r' ∨ x = '\n') := by
    cases sec <;> decide
  have hb : '?' ∉ ((if sec then httpsSlashesS else httpSlashesS) ++ r) ∧
      '#' ∉ ((if sec then httpsSlashesS else httpSlashesS) ++ r) ∧
      ';' ∉ ((if sec then httpsSlashesS else httpSlashesS) ++ r) ∧
      '\t' ∉ ((if sec then httpsSlashesS else httpSlashesS) ++ r) ∧
      '\r' ∉ ((if sec then httpsSlashesS else httpSlashesS) ++ r) ∧
      '\n' ∉ ((if sec then httpsSlashesS else httpSlashesS) ++ r) := by
    refine ⟨?_, ?_, ?_, ?_, ?_, ?_⟩ <;>
      (intro hc
       rcases List.mem_append.mp hc with h | h
       · exact hschemeMem _ h (by simp)
       · first
         | exact hr1 h
         | exact hr2 h
         | exact hr3 h
         | exact hr4 h
         | exact hr5 h
         | exact hr6 h)
  have hfp : fragPartOf frag = [] ∨
      ∃ f, fragPartOf frag = '#' :: f ∧
        '\t' ∉ f ∧ '\r' ∉ f ∧ '\n' ∉ f := by
    cases frag with
    | none => exact Or.inl rfl
    | some f =>
      obtain ⟨-, h2, h3, h4⟩ := hf f rfl
      exact Or.inr ⟨f, rfl, h2, h3, h4⟩
  have hmk : mkAbsUrl sec r frag =
      ((if sec then httpsSlashesS else httpSlashesS) ++ r) ++ fragPartOf frag := by
    simp [mkAbsUrl, List.append_assoc]
  have hparsed := urlparse_wrapped t
    ((if sec then httpsSlashesS else httpSlashesS) ++ r)
    (fragPartOf frag) ht hb hfp
  have hne : wrapWayback (mkAbsUrl sec r frag) t ≠ [] := by
    have : wrapWayback (mkAbsUrl sec r frag) t
        = "https://web.archive.org/web/".toList ++
          (t ++ '/' :: mkAbsUrl sec r frag) := rfl
    rw [this]
    simp
  unfold strip_wayback
  rw [if_neg hne, hmk, hparsed]
  have hcond1 : containsSeq webArchiveOrgS (lowerStr "web.archive.org".toList)
      = true := by decide
  have hcond2 : containsSeq slashWebSlashS
      ("/web/".toList ++ (t ++ '/' :: ((if sec then httpsSlashesS else httpSlashesS) ++ r)))
      = true := containsSeq_of_isPrefixOf isPrefixOf_append
  simp only [hcond1, hcond2, Bool.and_self, if_true, Bool.true_and]
  have hsplitseq : splitSeqOnce slashWebSlashS
      ("/web/".toList ++ (t ++ '/' :: ((if sec then httpsSlashesS else httpSlashesS) ++ r)))
      = some ([], t ++ '/' :: ((if sec then httpsSlashesS else httpSlashesS) ++ r)) :=
    splitSeqOnce_prefix (by decide)
  rw [hsplitseq]
  have hhasSlash : containsChar '/'
      (t ++ '/' :: ((if sec then httpsSlashesS else httpSlashesS) ++ r)) = true :=
    containsChar_of_mem (by simp)
  rw [hhasSlash]
  have hmaybe : splitCharOnce '/'
      (t ++ '/' :: ((if sec then httpsSlashesS else httpSlashesS) ++ r))
      = some (t, (if sec then httpsSlashesS else httpSlashesS) ++ r) :=
    splitCharOnce_append _ ht.1
  rw [hmaybe]
  have hstarts : (startsWithStr httpSlashesS
        ((if sec then httpsSlashesS else httpSlashesS) ++ r) ||
      startsWithStr httpsSlashesS
        ((if sec then httpsSlashesS else httpSlashesS) ++ r)) = true := by
    cases sec
    · rw [if_neg (by simp : ¬((false : Bool) = true))]
      exact Bool.or_eq_true_iff.mpr (Or.inl isPrefixOf_append)
    · rw [if_pos rfl]
      exact Bool.or_eq_true_iff.mpr (Or.inr isPrefixOf_append)
  simp only [startsWithStr] at hstarts
  simp only [startsWithStr, hstarts, if_true]
  cases frag with
  | none => simp [mkAbsUrl, fragPartOf]
  | some f =>
    obtain ⟨h1, -, -, -⟩ := hf f rfl
    simp [mkAbsUrl, fragPartOf, h1]

/-- Witness for `c3_strip_wrap_roundtrip_no_query` at a concrete URL with a
fragment and a digit timestamp. -/
theorem c3_strip_wrap_roundtrip_no_query_witness :
    strip_wayback (wrapWayback
        (mkAbsUrl true "ex.com/a".toList (some "frag".toList)) "2020".toList)
      = mkAbsUrl true "ex.com/a".toList (some "frag".toList) :=
  c3_strip_wrap_roundtrip_no_query true "ex.com/a".toList "2020".toList
    (some "frag".toList) (by decide) (by decide)
    (by
      intro f hfe
      cases hfe
      exact ⟨by decide, by decide, by decide, by decide⟩)

/-- The in-literal transition of the scanner, uniform over the four
literal-carrying states. -/
theorem jsStep_lit (mode : JMode)
    (hm : mode = JMode.squote ∨ mode = JMode.dquote ∨ mode = JMode.template ∨
      mode = JMode.regex) (done : Str) (ch : Char) (nxt : Option Char)
    (esc : Bool) (pnw : Option Char) :
    jsStep done ch nxt mode esc pnw =
      ⟨[ch], (if !esc && ch = delimOfMode mode then JMode.out else mode),
        (!esc && ch = backslashChar), pnw, false⟩ := by
  rcases hm with rfl | rfl | rfl | rfl <;> rfl

/-- None of the four literal delimiters is the backslash. -/
theorem delimOfMode_ne_backslash (mode : JMode)
    (hm : mode = JMode.squote ∨ mode = JMode.dquote ∨ mode = JMode.template ∨
      mode = JMode.regex) : (delimOfMode mode = backslashChar) = False := by
  rcases hm with rfl | rfl | rfl | rfl <;> simp [delimOfMode] <;> decide

/-- Running the scanner from a literal-carrying state over a well-formed
body and its closing delimiter emits every character unchanged and returns
to code state, consuming one fuel per character. -/
theorem jsAuxGo_lit_run (mode : JMode)
    (hm : mode = JMode.squote ∨ mode = JMode.dquote ∨ mode = JMode.template ∨
      mode = JMode.regex) :
    ∀ (text : Str) (esc : Bool),
      litOkAux (delimOfMode mode) esc text = true →
      ∀ (fuel : Nat) (done post : Str) (pnw : Option Char) (acc : Str),
      jsAuxGo (fuel + text.length + 1) done
          (text ++ delimOfMode mode :: post) mode esc pnw acc
        = jsAuxGo fuel (delimOfMode mode :: text.reverse ++ done) post
            JMode.out false pnw (delimOfMode mode :: text.reverse ++ acc) := by
  intro text
  induction text with
  | nil =>
    intro esc hlit fuel done post pnw acc
    have hesc : esc = false := by simpa [litOkAux] using hlit
    subst hesc
    show jsAuxGo (fuel + 1) done (delimOfMode mode :: post) mode false pnw acc = _
    simp only [jsAuxGo]
    rw [jsStep_lit mode hm]
    simp [delimOfMode_ne_backslash mode hm]
  | cons c t' ih =>
    intro esc hlit fuel done post pnw acc
    simp only [litOkAux] at hlit
    split at hlit
    · exact absurd hlit (by simp)
    · rename_i hguard
      have hguard' : (!esc && c = delimOfMode mode) = false := by
        simpa using hguard
      show jsAuxGo (fuel + t'.length + 1 + 1) done
          (c :: (t' ++ delimOfMode mode :: post)) mode esc pnw acc = _
      simp only [jsAuxGo]
      rw [jsStep_lit mode hm]
      simp only [hguard', if_false]
      have := ih (!esc && c = backslashChar) hlit fuel (c :: done) post pnw (c :: acc)
      simp only [List.reverse_cons, List.append_assoc, List.singleton_append,
        List.cons_append] at this ⊢
      exact this

/-- C7 amended: when the scanner reaches a string literal's opening quote in
code state — or a regex literal's opening `/` in operand position, the body
not starting with `/` or `*` — a literal whose body follows the scanner's
escape discipline is emitted byte-for-byte and the scanner returns to code
state. (As the counterexample shows, the scanner does not always reach a
literal in code state, so this is weaker than the original claim.) -/
theorem c7_literal_preserved_from_code_state :
    (∀ (q : Char) (text : Str) (fuel : Nat) (done post : Str)
        (pnw : Option Char) (acc : Str) (esc : Bool),
      (q = '"' ∨ q = squoteChar ∨ q = backtickChar) →
      litOk q text = true →
      jsAuxGo (fuel + text.length + 2) done (q :: (text ++ q :: post))
          JMode.out esc pnw acc
        = jsAuxGo fuel (q :: text.reverse ++ q :: done) post JMode.out false
            pnw (q :: text.reverse ++ q :: acc)) ∧
    (∀ (text : Str) (fuel : Nat) (done post : Str) (pnw : Option Char)
        (acc : Str) (esc : Bool),
      is_regex_context pnw = true →
      text ≠ [] →
      (∀ c0 t0, text = c0 :: t0 → c0 ≠ '/' ∧ c0 ≠ '*') →
      litOk '/' text = true →
      jsAuxGo (fuel + text.length + 2) done ('/' :: (text ++ '/' :: post))
          JMode.out esc pnw acc
        = jsAuxGo fuel ('/' :: text.reverse ++ '/' :: done) post JMode.out
            false pnw ('/' :: text.reverse ++ '/' :: acc)) := by
  constructor
  · intro q text fuel done post pnw acc esc hq hlit
    have hstep : jsStep done q (text ++ q :: post).head? JMode.out esc pnw =
        ⟨[q], modeOfQuote q, false, pnw, false⟩ := by
      rcases hq with rfl | rfl | rfl <;>
        simp [jsStep, modeOfQuote, squoteChar, backtickChar]
    have hdelim : delimOfMode (modeOfQuote q) = q := by
      rcases hq with rfl | rfl | rfl <;>
        simp [modeOfQuote, delimOfMode, squoteChar, backtickChar] <;> decide
    have hmode : modeOfQuote q = JMode.squote ∨ modeOfQuote q = JMode.dquote ∨
        modeOfQuote q = JMode.template ∨ modeOfQuote q = JMode.regex := by
      rcases hq with rfl | rfl | rfl <;>
        simp [modeOfQuote, squoteChar, backtickChar] <;> decide
    show jsAuxGo (fuel + text.length + 1 + 1) done (q :: (text ++ q :: post))
        JMode.out esc pnw acc = _
    simp only [jsAuxGo]
    rw [hstep]
    simp only []
    have hrun := jsAuxGo_lit_run (modeOfQuote q) hmode text false
      (by rw [hdelim]; exact hlit) fuel (q :: done) post pnw (q :: acc)
    rw [hdelim] at hrun
    simpa using hrun
  · intro text fuel done post pnw acc esc hctx hne hc0 hlit
    obtain ⟨c0, t0, rfl⟩ : ∃ c0 t0, text = c0 :: t0 := by
      cases text with
      | nil => exact absurd rfl hne
      | cons a b => exact ⟨a, b, rfl⟩
    obtain ⟨hns, hnst⟩ := hc0 c0 t0 rfl
    have hstep : jsStep done '/' ((c0 :: t0) ++ '/' :: post).head? JMode.out
        esc pnw = ⟨['/'], JMode.regex, false, pnw, false⟩ := by
      simp [jsStep, hctx, hns, hnst, squoteChar, backtickChar]
    show jsAuxGo (fuel + (c0 :: t0).length + 1 + 1) done
        ('/' :: ((c0 :: t0) ++ '/' :: post)) JMode.out esc pnw acc = _
    simp only [jsAuxGo]
    rw [hstep]
    simp only []
    have hrun := jsAuxGo_lit_run JMode.regex (by simp) (c0 :: t0) false hlit
      fuel ('/' :: done) post pnw ('/' :: acc)
    simpa using hrun

/-- Witness for `c7_literal_preserved_from_code_state`: a double-quoted
string with body `a//b` reached in code state, and a regex literal `[a-z]`
in operand position, are both emitted verbatim. -/
theorem c7_literal_preserved_from_code_state_witness :
    jsAuxGo (0 + "a//b".toList.length + 2) [] ('"' :: ("a//b".toList ++ '"' :: ";".toList))
        JMode.out false none []
      = jsAuxGo 0 ('"' :: "a//b".toList.reverse ++ '"' :: []) ";".toList
          JMode.out false none ('"' :: "a//b".toList.reverse ++ '"' :: []) ∧
    jsAuxGo (0 + "[a-z]".toList.length + 2) [] ('/' :: ("[a-z]".toList ++ '/' :: ";".toList))
        JMode.out false (some '=') []
      = jsAuxGo 0 ('/' :: "[a-z]".toList.reverse ++ '/' :: []) ";".toList
          JMode.out false (some '=') ('/' :: "[a-z]".toList.reverse ++ '/' :: []) :=
  ⟨c7_literal_preserved_from_code_state.1 '"' "a//b".toList 0 [] ";".toList
      none [] false (Or.inl rfl) (by decide),
   c7_literal_preserved_from_code_state.2 "[a-z]".toList 0 [] ";".toList
      (some '=') [] false (by decide) (by decide)
      (by intro c0 t0 he; cases he; exact ⟨by decide, by decide⟩) (by decide)⟩

/-! ### Lemmas about the deduplication pass -/

theorem lexLe_refl (a : Str) : lexLe a a = true := by
  induction a with
  | nil => rfl
  | cons c t ih => simp [lexLe, ih]

theorem lexLe_total (a b : Str) : lexLe a b = true ∨ lexLe b a = true := by
  induction a generalizing b with
  | nil => exact Or.inl rfl
  | cons c t ih =>
    cases b with
    | nil => exact Or.inr rfl
    | cons d u =>
      rcases lt_trichotomy c d with h | h | h
      · exact Or.inl (by simp [lexLe, h])
      · subst h
        rcases ih u with h2 | h2
        · exact Or.inl (by simp [lexLe, h2])
        · exact Or.inr (by simp [lexLe, h2])
      · exact Or.inr (by simp [lexLe, h])

theorem lexLe_antisymm : ∀ {a b : Str}, lexLe a b = true → lexLe b a = true →
    a = b := by
  intro a
  induction a with
  | nil =>
    intro b _ hba
    cases b with
    | nil => rfl
    | cons d u => simp [lexLe] at hba
  | cons c t ih =>
    intro b hab hba
    cases b with
    | nil => simp [lexLe] at hab
    | cons d u =>
      simp only [lexLe, Bool.or_eq_true, Bool.and_eq_true, decide_eq_true_eq]
        at hab hba
      rcases hab with h1 | ⟨h1, h2⟩
      · rcases hba with h3 | ⟨h3, h4⟩
        · exact absurd h3 (not_lt_of_gt h1)
        · exact absurd h1 (by simp [h3])
      · subst h1
        rcases hba with h3 | ⟨-, h4⟩
        · exact absurd h3 (lt_irrefl _)
        · rw [ih h2 h4]

theorem lexLe_trans : ∀ {a b c : Str}, lexLe a b = true → lexLe b c = true →
    lexLe a c = true := by
  intro a
  induction a with
  | nil => intro b c _ _; rfl
  | cons x t ih =>
    intro b c hab hbc
    cases b with
    | nil => simp [lexLe] at hab
    | cons y u =>
      cases c with
      | nil => simp [lexLe] at hbc
      | cons z v =>
        simp only [lexLe, Bool.or_eq_true, Bool.and_eq_true,
          decide_eq_true_eq] at hab hbc ⊢
        rcases hab with h1 | ⟨rfl, h2⟩
        · rcases hbc with h3 | ⟨rfl, h4⟩
          · exact Or.inl (lt_trans h1 h3)
          · exact Or.inl h1
        · rcases hbc with h3 | ⟨rfl, h4⟩
          · exact Or.inl h3
          · exact Or.inr ⟨rfl, ih h2 h4⟩

theorem insertSorted_perm (x : Str × Str) (l : List (Str × Str)) :
    List.Perm (insertSorted x l) (x :: l) := by
  induction l with
  | nil => rfl
  | cons y t ih =>
    simp only [insertSorted]
    split
    · rfl
    · exact ((ih.cons y).trans (List.Perm.swap x y t))

theorem sortByName_perm (l : List (Str × Str)) :
    List.Perm (sortByName l) l := by
  induction l with
  | nil => rfl
  | cons x t ih =>
    exact (insertSorted_perm x (sortByName t)).trans (ih.cons x)

theorem insertSorted_sorted {x : Str × Str} {l : List (Str × Str)}
    (h : l.Pairwise (fun a b => lexLe a.1 b.1 = true)) :
    (insertSorted x l).Pairwise (fun a b => lexLe a.1 b.1 = true) := by
  induction l with
  | nil => simp [insertSorted]
  | cons y t ih =>
    simp only [insertSorted]
    split
    · rename_i hle
      refine List.Pairwise.cons ?_ h
      intro z hz
      rcases List.mem_cons.mp hz with rfl | hz'
      · exact hle
      · exact lexLe_trans hle ((List.pairwise_cons.mp h).1 z hz')
    · rename_i hle
      have hyx : lexLe y.1 x.1 = true := by
        rcases lexLe_total x.1 y.1 with h2 | h2
        · exact absurd h2 hle
        · exact h2
      obtain ⟨hy, ht⟩ := List.pairwise_cons.mp h
      refine List.Pairwise.cons ?_ (ih ht)
      intro z hz
      have hz' := (insertSorted_perm x t).mem_iff.mp hz
      rcases List.mem_cons.mp hz' with rfl | hz''
      · exact hyx
      · exact hy z hz''

theorem sortByName_sorted (l : List (Str × Str)) :
    (sortByName l).Pairwise (fun a b => lexLe a.1 b.1 = true) := by
  induction l with
  | nil => exact List.Pairwise.nil
  | cons x t ih => exact insertSorted_sorted ih

theorem assocGet_assocSet (m : List (Str × Str)) (k v k' : Str) :
    assocGet (assocSet m k v) k' =
      if k = k' then some v else assocGet m k' := by
  induction m with
  | nil => simp [assocSet, assocGet]
  | cons p t ih =>
    obtain ⟨k0, v0⟩ := p
    simp only [assocSet]
    by_cases h0 : k0 = k
    · subst h0
      simp only [if_pos rfl, assocGet]
      by_cases h1 : k0 = k'
      · simp [h1]
      · simp [h1, assocGet]
    · simp only [if_neg h0, assocGet]
      by_cases h1 : k0 = k'
      · subst h1
        have : ¬(k = k0) := fun he => h0 he.symm
        simp [this]
      · simp [h1, ih]

theorem dedupe_go_split (pfx : Str) :
    ∀ (files : List (Str × Str)) (seen m : List (Str × Str)) (sacc : List Str),
      (dedupe_go pfx seen m sacc files).1 = sacc.reverse ++ survGo seen files ∧
      (dedupe_go pfx seen m sacc files).2 = mapGo pfx seen m files := by
  intro files
  induction files with
  | nil => intro seen m sacc; simp [dedupe_go, survGo, mapGo]
  | cons p rest ih =>
    intro seen m sacc
    obtain ⟨fname, h⟩ := p
    simp only [dedupe_go, survGo, mapGo]
    cases hs : assocGet seen h with
    | none =>
      have := ih (assocSet seen h fname) m (fname :: sacc)
      simp only [List.reverse_cons] at this
      simp [this.1, this.2, List.append_assoc]
    | some canon =>
      exact ih seen
        (assocSet m (lowerStr fname) (norm_slashes (posix_join pfx canon))) sacc

theorem survGo_subset : ∀ (files seen : List (Str × Str)) (f : Str),
    f ∈ survGo seen files → f ∈ files.map Prod.fst := by
  intro files
  induction files with
  | nil => intro seen f hf; simp [survGo] at hf
  | cons p rest ih =>
    intro seen f hf
    obtain ⟨fname, h⟩ := p
    simp only [survGo] at hf
    cases hs : assocGet seen h with
    | none =>
      rw [hs] at hf
      rcases List.mem_cons.mp hf with rfl | hf'
      · simp
      · simp only [List.map_cons, List.mem_cons]
        exact Or.inr (ih _ f hf')
    | some canon =>
      rw [hs] at hf
      simp only [List.map_cons, List.mem_cons]
      exact Or.inr (ih _ f hf)

theorem survGo_mem_iff :
    ∀ (L : List (Str × Str)) (seen : List (Str × Str)),
      L.Pairwise (fun a b => lexLe a.1 b.1 = true) →
      (L.map Prod.fst).Nodup →
      ∀ f h, (f, h) ∈ L →
        (f ∈ survGo seen L ↔
          (assocGet seen h = none ∧ ∀ g, (g, h) ∈ L → lexLe f g = true)) := by
  intro L
  induction L with
  | nil =>
    intro seen _ _ f h hf
    simp at hf
  | cons p rest ih =>
    intro seen hsort hnd f h hf
    obtain ⟨g0, k0⟩ := p
    obtain ⟨hhead, hrest_sort⟩ := List.pairwise_cons.mp hsort
    have hnd_rest : (rest.map Prod.fst).Nodup := (List.nodup_cons.mp hnd).2
    have hg0_not : g0 ∉ rest.map Prod.fst := (List.nodup_cons.mp hnd).1
    simp only [survGo]
    cases hs : assocGet seen k0 with
    | some c =>
      rcases List.mem_cons.mp hf with he | hf'
      · rw [Prod.mk.injEq] at he
        obtain ⟨rfl, rfl⟩ := he
        constructor
        · intro hmem
          exact absurd (survGo_subset rest seen _ hmem) hg0_not
        · rintro ⟨hnone, -⟩
          rw [hs] at hnone
          exact absurd hnone (by simp)
      · rw [ih seen hrest_sort hnd_rest f h hf']
        constructor
        · rintro ⟨hnone, hall⟩
          refine ⟨hnone, ?_⟩
          intro g hg
          rcases List.mem_cons.mp hg with he | hg'
          · rw [Prod.mk.injEq] at he
            obtain ⟨rfl, rfl⟩ := he
            rw [hs] at hnone
            exact absurd hnone (by simp)
          · exact hall g hg'
        · rintro ⟨hnone, hall⟩
          exact ⟨hnone, fun g hg => hall g (List.mem_cons_of_mem _ hg)⟩
    | none =>
      rcases List.mem_cons.mp hf with he | hf'
      · rw [Prod.mk.injEq] at he
        obtain ⟨rfl, rfl⟩ := he
        constructor
        · intro _
          refine ⟨hs, ?_⟩
          intro g hg
          rcases List.mem_cons.mp hg with he2 | hg'
          · rw [Prod.mk.injEq] at he2
            obtain ⟨rfl, -⟩ := he2
            exact lexLe_refl _
          · exact hhead (g, h) hg'
        · intro _
          exact List.mem_cons_self _ _
      · have hne_f : f ≠ g0 := by
          intro he
          apply hg0_not
          rw [← he]
          exact List.mem_map_of_mem Prod.fst hf'
        have hiff := ih (assocSet seen k0 g0) hrest_sort hnd_rest f h hf'
        constructor
        · intro hmem
          rcases List.mem_cons.mp hmem with he | hmem'
          · exact absurd he hne_f
          · obtain ⟨hnone', hall⟩ := hiff.mp hmem'
            rw [assocGet_assocSet] at hnone'
            by_cases hk : k0 = h
            · rw [if_pos hk] at hnone'
              exact absurd hnone' (by simp)
            · rw [if_neg hk] at hnone'
              refine ⟨hnone', ?_⟩
              intro g hg
              rcases List.mem_cons.mp hg with he2 | hg'
              · rw [Prod.mk.injEq] at he2
                obtain ⟨rfl, he3⟩ := he2
                exact absurd he3.symm hk
              · exact hall g hg'
        · rintro ⟨hnone, hall⟩
          by_cases hk : k0 = h
          · subst hk
            have h1 : lexLe f g0 = true := hall g0 (List.mem_cons_self _ _)
            have h2 : lexLe g0 f = true := hhead (f, k0) hf'
            exact absurd (lexLe_antisymm h1 h2) hne_f
          · apply List.mem_cons_of_mem
            apply hiff.mpr
            rw [assocGet_assocSet, if_neg hk]
            exact ⟨hnone, fun g hg => hall g (List.mem_cons_of_mem _ hg)⟩

theorem mapGo_preserve (pfx : Str) :
    ∀ (L : List (Str × Str)) (seen m : List (Str × Str)) (k : Str),
      k ∉ L.map (fun p => lowerStr p.1) →
      assocGet (mapGo pfx seen m L) k = assocGet m k := by
  intro L
  induction L with
  | nil => intro seen m k _; rfl
  | cons p rest ih =>
    intro seen m k hk
    obtain ⟨g0, k0⟩ := p
    have hk1 : k ≠ lowerStr g0 := by
      intro he
      exact hk (by simp [he])
    have hk2 : k ∉ rest.map (fun p => lowerStr p.1) := by
      intro hm
      exact hk (by simp [hm])
    simp only [mapGo]
    cases hs : assocGet seen k0 with
    | none => exact ih (assocSet seen k0 g0) m k hk2
    | some c0 =>
      rw [ih seen _ k hk2, assocGet_assocSet,
        if_neg (fun he => hk1 he.symm)]

theorem mapGo_deleted (pfx : Str) :
    ∀ (L : List (Str × Str)) (seen m : List (Str × Str)),
      (L.map (fun p => lowerStr p.1)).Nodup →
      ∀ f h, (f, h) ∈ L → f ∉ survGo seen L →
      ∃ c, (assocGet seen h = some c ∨ ((c, h) ∈ L ∧ c ∈ survGo seen L)) ∧
        assocGet (mapGo pfx seen m L) (lowerStr f)
          = some (norm_slashes (posix_join pfx c)) := by
  intro L
  induction L with
  | nil =>
    intro seen m _ f h hf
    simp at hf
  | cons p rest ih =>
    intro seen m hnd f h hf hsur
    obtain ⟨g0, k0⟩ := p
    have hnd1 : lowerStr g0 ∉ rest.map (fun p => lowerStr p.1) :=
      (List.nodup_cons.mp (by simpa using hnd)).1
    have hnd2 : (rest.map (fun p => lowerStr p.1)).Nodup :=
      (List.nodup_cons.mp (by simpa using hnd)).2
    simp only [survGo] at hsur
    simp only [mapGo]
    cases hs : assocGet seen k0 with
    | some c0 =>
      have hsv : survGo seen ((g0, k0) :: rest) = survGo seen rest := by
        simp only [survGo, hs]
      rw [hs] at hsur
      rcases List.mem_cons.mp hf with he | hf'
      · rw [Prod.mk.injEq] at he
        obtain ⟨rfl, rfl⟩ := he
        refine ⟨c0, Or.inl hs, ?_⟩
        rw [mapGo_preserve pfx rest seen _ _ hnd1, assocGet_assocSet,
          if_pos rfl]
      · obtain ⟨c, hc, hlook⟩ := ih seen
          (assocSet m (lowerStr g0) (norm_slashes (posix_join pfx c0)))
          hnd2 f h hf' hsur
        refine ⟨c, ?_, hlook⟩
        rcases hc with hc | ⟨hc1, hc2⟩
        · exact Or.inl hc
        · exact Or.inr ⟨List.mem_cons_of_mem _ hc1, hsv ▸ hc2⟩
    | none =>
      have hsv : survGo seen ((g0, k0) :: rest)
          = g0 :: survGo (assocSet seen k0 g0) rest := by
        simp only [survGo, hs]
      rw [hs] at hsur
      rcases List.mem_cons.mp hf with he | hf'
      · rw [Prod.mk.injEq] at he
        obtain ⟨rfl, rfl⟩ := he
        exact absurd (List.mem_cons_self _ _) hsur
      · have hsur' : f ∉ survGo (assocSet seen k0 g0) rest := by
          intro hm
          exact hsur (List.mem_cons_of_mem _ hm)
        obtain ⟨c, hc, hlook⟩ := ih (assocSet seen k0 g0) m hnd2 f h hf' hsur'
        rcases hc with hc | ⟨hc1, hc2⟩
        · rw [assocGet_assocSet] at hc
          by_cases hk : k0 = h
          · rw [if_pos hk] at hc
            injection hc with hc
            subst hc
            subst hk
            refine ⟨g0, Or.inr ⟨List.mem_cons_self _ _, ?_⟩, hlook⟩
            rw [hsv]
            exact List.mem_cons_self _ _
          · rw [if_neg hk] at hc
            exact ⟨c, Or.inl hc, hlook⟩
        · refine ⟨c, Or.inr ⟨List.mem_cons_of_mem _ hc1, ?_⟩, hlook⟩
          rw [hsv]
          exact List.mem_cons_of_mem _ hc2

/-- C5 (amended): over any listing of `(filename, digest)` pairs with
pairwise-distinct lowercased names, a file survives `dedupe_folder` exactly
when it is the lexicographically least name of its digest class, and every
deleted file gets its raw lowercased listing name re-pointed in the mapping
at the canonical (surviving) same-digest file's `rel_pfx`-joined path.
(The stale-alias half of the corrected claim is `c5_normalized_key_left_stale`.) -/
theorem c5_dedupe_survivor_and_raw_key
    (files : List (Str × Str)) (pfx : Str) (m : List (Str × Str))
    (hnd : (files.map (fun p => lowerStr p.1)).Nodup)
    (f h : Str) (hf : (f, h) ∈ files) :
    (f ∈ (dedupe_folder files pfx m).1 ↔
      ∀ g, (g, h) ∈ files → lexLe f g = true) ∧
    (f ∉ (dedupe_folder files pfx m).1 →
      ∃ c, (c, h) ∈ files ∧ c ∈ (dedupe_folder files pfx m).1 ∧
        assocGet (dedupe_folder files pfx m).2 (lowerStr f)
          = some (norm_slashes (posix_join pfx c))) := by
  have hperm : List.Perm (sortByName files) files := sortByName_perm files
  have hsort := sortByName_sorted files
  have hndlow : ((sortByName files).map (fun p => lowerStr p.1)).Nodup :=
    (hperm.map (fun p => lowerStr p.1)).nodup_iff.mpr hnd
  have hndfst : ((sortByName files).map Prod.fst).Nodup := by
    have hcomp : (sortByName files).map (fun p => lowerStr p.1)
        = ((sortByName files).map Prod.fst).map lowerStr := by
      simp [List.map_map]
    rw [hcomp] at hndlow
    exact List.Nodup.of_map _ hndlow
  have hndlow2 : ((sortByName files).map (fun p => lowerStr p.1)).Nodup :=
    (hperm.map (fun p => lowerStr p.1)).nodup_iff.mpr hnd
  have hfL : (f, h) ∈ sortByName files := hperm.mem_iff.mpr hf
  have hsplit := dedupe_go_split pfx (sortByName files) [] m []
  have h1 : (dedupe_folder files pfx m).1 = survGo [] (sortByName files) := by
    simpa [dedupe_folder] using hsplit.1
  have h2 : (dedupe_folder files pfx m).2 = mapGo pfx [] m (sortByName files) := by
    simpa [dedupe_folder] using hsplit.2
  constructor
  · rw [h1, survGo_mem_iff (sortByName files) [] hsort hndfst f h hfL]
    constructor
    · rintro ⟨-, hmin⟩ g hg
      exact hmin g (hperm.mem_iff.mpr hg)
    · intro hmin
      exact ⟨rfl, fun g hg => hmin g (hperm.mem_iff.mp hg)⟩
  · intro hnot
    rw [h1] at hnot
    obtain ⟨c, hc, hlook⟩ :=
      mapGo_deleted pfx (sortByName files) [] m hndlow2 f h hfL hnot
    rcases hc with hc | ⟨hc1, hc2⟩
    · exact absurd hc (by simp [assocGet])
    · exact ⟨c, hperm.mem_iff.mp hc1, h1 ▸ hc2, h2 ▸ hlook⟩

/-- Witness for `c5_dedupe_survivor_and_raw_key`: in a listing with
`b.png` and `a.png` sharing one digest, `b.png` is deleted and its
lowercased name is re-pointed at `img/a.png`. -/
theorem c5_dedupe_survivor_and_raw_key_witness :
    "b.png".toList ∉
      (dedupe_folder [("b.png".toList, "d1".toList), ("a.png".toList, "d1".toList)]
        "img".toList []).1 ∧
    ∃ c, (c, "d1".toList) ∈
        [("b.png".toList, "d1".toList), ("a.png".toList, "d1".toList)] ∧
      c ∈ (dedupe_folder [("b.png".toList, "d1".toList), ("a.png".toList, "d1".toList)]
        "img".toList []).1 ∧
      assocGet (dedupe_folder [("b.png".toList, "d1".toList), ("a.png".toList, "d1".toList)]
          "img".toList []).2 (lowerStr "b.png".toList)
        = some (norm_slashes (posix_join "img".toList c)) := by
  have hth := c5_dedupe_survivor_and_raw_key
    [("b.png".toList, "d1".toList), ("a.png".toList, "d1".toList)]
    "img".toList [] (by decide) "b.png".toList "d1".toList (by decide)
  have hnot : "b.png".toList ∉
      (dedupe_folder [("b.png".toList, "d1".toList), ("a.png".toList, "d1".toList)]
        "img".toList []).1 := by decide
  exact ⟨hnot, hth.2 hnot⟩

theorem splitCharAll_ne_nil (c : Char) : ∀ p : Str, splitCharAll c p ≠ []
  | [] => by simp [splitCharAll]
  | x :: t => by
    simp only [splitCharAll]
    split
    · simp
    · split
      · simp
      · simp

theorem joinChar_nil (c : Char) : joinChar c [] = [] := rfl

theorem joinChar_single (c : Char) (s : Str) : joinChar c [s] = s := by
  simp [joinChar, List.intercalate, List.intersperse]

theorem joinChar_cons2 (c : Char) (s s2 : Str) (rest : List Str) :
    joinChar c (s :: s2 :: rest) = s ++ c :: joinChar c (s2 :: rest) := by
  simp [joinChar, List.intercalate, List.intersperse]

theorem joinChar_splitCharAll (c : Char) : ∀ p : Str,
    joinChar c (splitCharAll c p) = p := by
  intro p
  induction p with
  | nil => rfl
  | cons x t ih =>
    simp only [splitCharAll]
    by_cases hx : x = c
    · rw [if_pos hx]
      cases hr : splitCharAll c t with
      | nil => exact absurd hr (splitCharAll_ne_nil c t)
      | cons h tl =>
        rw [hr] at ih
        rw [joinChar_cons2, hx, ih]
        simp
    · rw [if_neg hx]
      cases hr : splitCharAll c t with
      | nil => exact absurd hr (splitCharAll_ne_nil c t)
      | cons h tl =>
        rw [hr] at ih
        cases tl with
        | nil =>
          rw [joinChar_single]
          rw [joinChar_single] at ih
          rw [ih]
        | cons h2 tl2 =>
          rw [joinChar_cons2]
          rw [joinChar_cons2] at ih
          rw [List.cons_append, ih]

theorem splitCharAll_append_of_not_mem (c : Char) :
    ∀ (s q : Str), c ∉ s → ∀ h tl, splitCharAll c q = h :: tl →
      splitCharAll c (s ++ q) = (s ++ h) :: tl := by
  intro s
  induction s with
  | nil => intro q _ h tl hq; simpa using hq
  | cons x s2 ih =>
    intro q hc h tl hq
    have hx : x ≠ c := fun he => hc (by simp [he])
    have hc2 : c ∉ s2 := fun hm => hc (by simp [hm])
    simp only [List.cons_append, splitCharAll, if_neg hx, List.append_eq]
    rw [ih q hc2 h tl hq]

theorem splitCharAll_of_not_mem (c : Char) (s : Str) (hc : c ∉ s) :
    splitCharAll c s = [s] := by
  have := splitCharAll_append_of_not_mem c s [] hc [] [] rfl
  simpa using this

theorem splitCharAll_joinChar (c : Char) : ∀ segs : List Str,
    (∀ s ∈ segs, s ≠ [] ∧ c ∉ s) → segs ≠ [] →
    splitCharAll c (joinChar c segs) = segs := by
  intro segs
  induction segs with
  | nil => intro _ hne; exact absurd rfl hne
  | cons s rest ih =>
    intro hg _
    cases rest with
    | nil =>
      rw [joinChar_single]
      exact splitCharAll_of_not_mem c s (hg s (by simp)).2
    | cons s2 rest2 =>
      rw [joinChar_cons2]
      have hrec := ih (fun z hz => hg z (List.mem_cons_of_mem _ hz)) (by simp)
      have hstep : splitCharAll c (c :: joinChar c (s2 :: rest2))
          = [] :: (s2 :: rest2) := by
        simp only [splitCharAll]
        rw [if_pos trivial, hrec]
      have := splitCharAll_append_of_not_mem c s (c :: joinChar c (s2 :: rest2))
        (hg s (by simp)).2 [] (s2 :: rest2) hstep
      simpa using this

theorem mem_joinChar (c : Char) : ∀ (segs : List Str) (x : Char),
    x ∈ joinChar c segs → x = c ∨ ∃ s ∈ segs, x ∈ s := by
  intro segs
  induction segs with
  | nil => intro x hx; simp [joinChar_nil] at hx
  | cons s rest ih =>
    intro x hx
    cases rest with
    | nil =>
      rw [joinChar_single] at hx
      exact Or.inr ⟨s, by simp, hx⟩
    | cons s2 rest2 =>
      rw [joinChar_cons2] at hx
      rcases List.mem_append.mp hx with hx | hx
      · exact Or.inr ⟨s, by simp, hx⟩
      · rcases List.mem_cons.mp hx with rfl | hx
        · exact Or.inl rfl
        · rcases ih x hx with h | ⟨z, hz, hxz⟩
          · exact Or.inl h
          · exact Or.inr ⟨z, List.mem_cons_of_mem _ hz, hxz⟩

theorem joinChar_last (c : Char) : ∀ segs : List Str,
    (∀ s ∈ segs, s ≠ [] ∧ c ∉ s) → segs ≠ [] →
    ∃ q b, joinChar c segs = q ++ [b] ∧ b ≠ c := by
  intro segs
  induction segs with
  | nil => intro _ hne; exact absurd rfl hne
  | cons s rest ih =>
    intro hg _
    cases rest with
    | nil =>
      obtain ⟨hne, hc⟩ := hg s (by simp)
      cases hs : s.reverse with
      | nil => exact absurd (by simpa using congrArg List.reverse hs) hne
      | cons b rq =>
        have hqb : s = rq.reverse ++ [b] := by
          simpa using congrArg List.reverse hs
        refine ⟨rq.reverse, b, by rw [joinChar_single, hqb], ?_⟩
        intro he
        exact hc (by rw [hqb, he]; simp)
    | cons s2 rest2 =>
      obtain ⟨q, b, hqb, hb⟩ :=
        ih (fun z hz => hg z (List.mem_cons_of_mem _ hz)) (by simp)
      refine ⟨s ++ c :: q, b, ?_, hb⟩
      rw [joinChar_cons2, hqb]
      simp

theorem rstripChar_concat_ne (c : Char) (q : Str) (b : Char) (hb : b ≠ c) :
    rstripChar c (q ++ [b]) = q ++ [b] := by
  simp only [rstripChar, List.reverse_append, List.reverse_cons, List.reverse_nil,
    List.nil_append, List.cons_append, List.dropWhile]
  rw [decide_eq_false hb]
  simp

theorem normpathStep_good (i : Nat) (acc : List Str) (s : Str)
    (h1 : s ≠ []) (h2 : s ≠ ['.']) (h3 : s ≠ ['.', '.']) :
    normpathStep i acc s = acc ++ [s] := by
  simp only [normpathStep]
  rw [if_neg (by simp [h1, h2]), if_pos (by simp [h3])]

theorem foldl_normpathStep_good (i : Nat) : ∀ (segs : List Str) (acc : List Str),
    (∀ s ∈ segs, s ≠ [] ∧ s ≠ ['.'] ∧ s ≠ ['.', '.']) →
    segs.foldl (normpathStep i) acc = acc ++ segs := by
  intro segs
  induction segs with
  | nil => intro acc _; simp
  | cons s rest ih =>
    intro acc hg
    obtain ⟨h1, h2, h3⟩ := hg s (by simp)
    simp only [List.foldl_cons]
    rw [normpathStep_good i acc s h1 h2 h3,
      ih _ (fun z hz => hg z (List.mem_cons_of_mem _ hz))]
    simp

theorem posix_normpath_fix (p : Str)
    (hg : ∀ s ∈ splitCharAll '/' p, s ≠ [] ∧ '/' ∉ s ∧ s ≠ ['.'] ∧ s ≠ ['.', '.']) :
    posix_normpath p = p := by
  have hpne : p ≠ [] := by
    intro he
    subst he
    exact (hg [] (by simp [splitCharAll])).1 rfl
  have hstart : startsWithStr ['/'] p = false := by
    cases p with
    | nil => exact absurd rfl hpne
    | cons a t =>
      by_cases ha : a = '/'
      · subst ha
        have := (hg [] (by simp [splitCharAll])).1
        exact absurd rfl this
      · have hba : ('/' == a) = false := by
          simp [beq_iff_eq]
          exact fun he => ha he.symm
        simp [startsWithStr, List.isPrefixOf, hba]
  have hfold := foldl_normpathStep_good 0 (splitCharAll '/' p) []
    (fun s hs => ⟨(hg s hs).1, (hg s hs).2.2.1, (hg s hs).2.2.2⟩)
  simp only [posix_normpath, if_neg hpne, hstart, Bool.false_eq_true, if_false,
    List.replicate_zero, List.nil_append, hfold]
  rw [joinChar_splitCharAll]
  simp [hpne]

theorem map_noBackslash (p : Str) (hb : ∀ x ∈ p, x ≠ backslashChar) :
    p.map (fun c => if c = backslashChar then '/' else c) = p := by
  induction p with
  | nil => rfl
  | cons x t ih =>
    simp only [List.map_cons]
    rw [if_neg (hb x (by simp)), ih (fun z hz => hb z (by simp [hz]))]

theorem norm_slashes_fix (p : Str)
    (hg : ∀ s ∈ splitCharAll '/' p,
      s ≠ [] ∧ '/' ∉ s ∧ backslashChar ∉ s ∧ s ≠ ['.'] ∧ s ≠ ['.', '.']) :
    norm_slashes p = p := by
  rw [norm_slashes, posix_normpath_fix p
    (fun s hs => ⟨(hg s hs).1, (hg s hs).2.1, (hg s hs).2.2.2⟩)]
  refine map_noBackslash p ?_
  intro x hx
  rw [← joinChar_splitCharAll '/' p] at hx
  rcases mem_joinChar '/' _ x hx with rfl | ⟨s, hs, hxs⟩
  · decide
  · intro he
    exact (hg s hs).2.2.1 (he ▸ hxs)

theorem rstripChar_fix (p : Str)
    (hg : ∀ s ∈ splitCharAll '/' p, s ≠ [] ∧ '/' ∉ s) :
    rstripChar '/' p = p := by
  obtain ⟨q, b, hqb, hb⟩ := joinChar_last '/' (splitCharAll '/' p) hg
    (splitCharAll_ne_nil '/' p)
  rw [joinChar_splitCharAll] at hqb
  rw [hqb]
  exact rstripChar_concat_ne '/' q b hb

theorem tv_eq_specVariants_good (p : Str) (fm : List Str)
    (hg : ∀ s ∈ splitCharAll '/' p,
      s ≠ [] ∧ '/' ∉ s ∧ backslashChar ∉ s ∧ s ≠ ['.'] ∧ s ≠ ['.', '.']) :
    try_variants_in_map p fm = specVariants p fm := by
  have hn : norm_slashes p = p := norm_slashes_fix p hg
  have hr : rstripChar '/' p = p :=
    rstripChar_fix p (fun s hs => ⟨(hg s hs).1, (hg s hs).2.1⟩)
  simp only [try_variants_in_map, specVariants, hn, hr]
  by_cases h1 : memS fm p = true
  · simp [h1]
  · by_cases h2 : (endsWithStr ['/'] p && memS fm (p ++ indexHtmlS)) = true
    · simp [h1, h2]
    · by_cases h3 : (!containsChar '.' (posix_basename p)) = true
      · by_cases h4 : memS fm (p ++ '/' :: indexHtmlS) = true
        · simp [h1, h2, h3, h4]
        · simp [h1, h2, h3, h4]
      · simp [h1, h2, h3]

theorem tv_empty_none (fm : List Str)
    (h1 : memS fm ['.'] = false)
    (h2 : memS fm ('.' :: dotHtmlS) = false) :
    try_variants_in_map [] fm = none := by
  have hns : norm_slashes ([] : Str) = ['.'] := rfl
  have e1 : endsWithStr ['/'] ['.'] = false := rfl
  have e2 : posix_basename ['.'] = ['.'] := rfl
  have e3 : containsChar '.' ['.'] = true := rfl
  have e4 : endsWithStr dotHtmlS (lowerStr ['.']) = false := rfl
  have e5 : ['.'] ++ dotHtmlS = '.' :: dotHtmlS := rfl
  simp only [try_variants_in_map, hns, h1, e1, e2, e3, e4, e5, h2,
    Bool.false_and, Bool.not_true, Bool.not_false, Bool.true_and,
    Bool.and_false, Bool.false_eq_true, if_false]

theorem specVariants_empty_none (fm : List Str)
    (h3 : memS fm [] = false)
    (h4 : memS fm ('/' :: indexHtmlS) = false)
    (h5 : memS fm dotHtmlS = false) :
    specVariants [] fm = none := by
  have e1 : endsWithStr ['/'] ([] : Str) = false := rfl
  have e2 : posix_basename [] = [] := rfl
  have e3 : containsChar '.' [] = false := rfl
  have e4 : endsWithStr dotHtmlS (lowerStr []) = false := rfl
  have e5 : ([] : Str) ++ '/' :: indexHtmlS = '/' :: indexHtmlS := rfl
  have e6 : ([] : Str) ++ dotHtmlS = dotHtmlS := rfl
  simp only [specVariants, h3, e1, e2, e3, e4, e5, e6, h4, h5,
    Bool.false_and, Bool.not_true, Bool.not_false, Bool.true_and,
    Bool.and_false, Bool.false_eq_true, if_false]

theorem stripTryLoop_eq_spec (parts : List Str) (fm : List Str)
    (hg : ∀ s ∈ parts,
      s ≠ [] ∧ '/' ∉ s ∧ backslashChar ∉ s ∧ s ≠ ['.'] ∧ s ≠ ['.', '.'])
    (k1 : memS fm ['.'] = false) (k2 : memS fm ('.' :: dotHtmlS) = false)
    (k3 : memS fm [] = false) (k4 : memS fm ('/' :: indexHtmlS) = false)
    (k5 : memS fm dotHtmlS = false) :
    ∀ (n cut stop : Nat), stop + 1 - cut ≤ n →
      stripTryLoop parts fm cut stop = specStripLoop parts fm cut stop := by
  intro n
  induction n with
  | zero =>
    intro cut stop hle
    have hgt : cut > stop := by omega
    rw [stripTryLoop, specStripLoop]
    simp [hgt]
  | succ m ih =>
    intro cut stop hle
    by_cases hgt : cut > stop
    · rw [stripTryLoop, specStripLoop]
      simp [hgt]
    · have hcand : try_variants_in_map (joinChar '/' (parts.drop cut)) fm
          = specVariants (joinChar '/' (parts.drop cut)) fm := by
        cases hd : parts.drop cut with
        | nil =>
          rw [joinChar_nil, tv_empty_none fm k1 k2,
            specVariants_empty_none fm k3 k4 k5]
        | cons s rest =>
          have hmem : ∀ z ∈ s :: rest, z ∈ parts := by
            intro z hz
            rw [← hd] at hz
            exact List.drop_subset _ _ hz
          apply tv_eq_specVariants_good
          intro z hz
          rw [splitCharAll_joinChar '/' (s :: rest)
            (fun t ht => ⟨(hg t (hmem t ht)).1, (hg t (hmem t ht)).2.1⟩)
            (by simp)] at hz
          exact hg z (hmem z hz)
      rw [stripTryLoop, specStripLoop]
      simp only [if_neg hgt]
      rw [hcand]
      cases hv : specVariants (joinChar '/' (parts.drop cut)) fm with
      | some h => rfl
      | none => exact ih (cut + 1) stop (by omega)

/-- C6: on a cleaned page-like path (every `/`-segment nonempty, slash- and
backslash-free and not `.`/`..`) and a file index containing none of the five
degenerate keys an empty stripped candidate would probe (`.` and `..html` on
the source side, the empty string, `/index.html` and `.html` on the spec's
reading), `resolve_local_target` computes exactly the cascade the claim
describes, as formalised by `specResolve`: variants (i)-(iv) in order on the
path itself, then on the path with up to 2 leading segments stripped
cumulatively, first match winning. -/
theorem c6_resolve_cascade_matches_spec (p : Str) (fm : List Str)
    (hg : ∀ s ∈ splitCharAll '/' p,
      s ≠ [] ∧ '/' ∉ s ∧ backslashChar ∉ s ∧ s ≠ ['.'] ∧ s ≠ ['.', '.'])
    (k1 : memS fm ['.'] = false) (k2 : memS fm ('.' :: dotHtmlS) = false)
    (k3 : memS fm [] = false) (k4 : memS fm ('/' :: indexHtmlS) = false)
    (k5 : memS fm dotHtmlS = false) :
    resolve_local_target p fm = specResolve p fm := by
  simp only [resolve_local_target, specResolve]
  rw [tv_eq_specVariants_good p fm hg]
  cases hv : specVariants p fm with
  | some h => rfl
  | none =>
    have hg2 : ∀ s ∈ (splitCharAll '/' p).filter (fun x => x ≠ []),
        s ≠ [] ∧ '/' ∉ s ∧ backslashChar ∉ s ∧ s ≠ ['.'] ∧ s ≠ ['.', '.'] :=
      fun s hs => hg s (List.mem_of_mem_filter hs)
    exact stripTryLoop_eq_spec _ fm hg2 k1 k2 k3 k4 k5
      (min maxStripSegments ((splitCharAll '/' p).filter (fun x => x ≠ [])).length + 1)
      1 _ (by omega)

/-- Witness for `c6_resolve_cascade_matches_spec`: the path `about` with
file index `{about.html}` resolves (via variant (iv), appending `.html`)
identically in source and spec readings. -/
theorem c6_resolve_cascade_matches_spec_witness :
    resolve_local_target "about".toList ["about.html".toList]
        = specResolve "about".toList ["about.html".toList] ∧
    resolve_local_target "about".toList ["about.html".toList]
        = some ("about.html".toList) :=
  ⟨c6_resolve_cascade_matches_spec ("about".toList) (["about.html".toList])
      (by decide) (by decide) (by decide) (by decide) (by decide) (by decide),
    by decide⟩

theorem grabGroup_append (X r : Str) (hp : ')' ∉ X) (hn : '\n' ∉ X) :
    grabGroup (X ++ ')' :: r) = some (X, r) := by
  induction X with
  | nil => rfl
  | cons c t ih =>
    have hc1 : c ≠ ')' := fun he => hp (by simp [he])
    have hc2 : c ≠ '\n' := fun he => hn (by simp [he])
    simp only [List.cons_append, grabGroup, if_neg hc1, if_neg hc2,
      List.append_eq]
    rw [ih (fun hm => hp (by simp [hm])) (fun hm => hn (by simp [hm]))]
    rfl

theorem subUrlGo_nil (M F : List (Str × Str)) (D : Str) :
    ∀ n, subUrlGo M F D n [] = []
  | 0 => rfl
  | _ + 1 => rfl

theorem subUrlGo_step_noopen (M F : List (Str × Str)) (D : Str) (m : Nat)
    (c : Char) (t : Str) (h : isUrlOpen (c :: t) = false) :
    subUrlGo M F D (m + 1) (c :: t) = c :: subUrlGo M F D m t := by
  simp [subUrlGo, h]

theorem subUrlGo_step_open (M F : List (Str × Str)) (D : Str) (m : Nat)
    (c : Char) (t g after : Str) (h : isUrlOpen (c :: t) = true)
    (hg : grabGroup ((c :: t).drop 4) = some (g, after)) :
    subUrlGo M F D (m + 1) (c :: t)
      = repl_url M F D g ((c :: t).take (5 + g.length)) ++
          subUrlGo M F D m after := by
  have hg2 : grabGroup (List.drop 3 t) = some (g, after) := hg
  simp [subUrlGo, h, hg2]

theorem isUrlOpen_containsSeq (t : Str) (h : isUrlOpen t = true) :
    containsSeq ['u', 'r', 'l', '('] (lowerStr t) = true := by
  match t with
  | [] => exact absurd h (by simp [isUrlOpen])
  | [a] => exact absurd h (by simp [isUrlOpen])
  | [a, b] => exact absurd h (by simp [isUrlOpen])
  | [a, b, c] => exact absurd h (by simp [isUrlOpen])
  | a :: b :: c :: d :: r =>
    simp only [isUrlOpen, Bool.and_eq_true, decide_eq_true_eq] at h
    obtain ⟨⟨⟨h1, h2⟩, h3⟩, h4⟩ := h
    simp [containsSeq, lowerStr, List.isPrefixOf, h1, h2, h3, h4]

theorem subUrlGo_id_of_no_open (M F : List (Str × Str)) (D : Str) :
    ∀ (t : Str) (n : Nat),
      containsSeq ['u', 'r', 'l', '('] (lowerStr t) = false →
      subUrlGo M F D n t = t := by
  intro t
  induction t with
  | nil => intro n _; cases n <;> rfl
  | cons c rest ih =>
    intro n hno
    cases n with
    | zero => rfl
    | succ m =>
      have hop : isUrlOpen (c :: rest) = false := by
        cases hb : isUrlOpen (c :: rest) with
        | false => rfl
        | true =>
          rw [isUrlOpen_containsSeq _ hb] at hno
          exact absurd hno (by decide)
      have hrest : containsSeq ['u', 'r', 'l', '('] (lowerStr rest) = false := by
        have : lowerStr (c :: rest) = c.toLower :: lowerStr rest := rfl
        rw [this] at hno
        simp only [containsSeq, Bool.or_eq_false_iff] at hno
        exact hno.2
      rw [subUrlGo_step_noopen M F D m c rest hop, ih m hrest]

theorem subUrl_id_of_no_open (M F : List (Str × Str)) (D : Str) (t : Str)
    (hno : containsSeq ['u', 'r', 'l', '('] (lowerStr t) = false) :
    subUrl M F D t = t :=
  subUrlGo_id_of_no_open M F D t t.length hno

theorem repl_import_unresolved (cssMap : List (Str × Str)) (cssDir g whole : Str)
    (h1 : assocGet cssMap
      (lowerStr (url_basename (strip_wayback (inside_of g)))) = none)
    (h2 : assocGet cssMap (strip_wayback (inside_of g)) = none) :
    repl_import cssMap cssDir g whole = whole := by
  have hrw : repl_import cssMap cssDir g whole =
      (match
        (match assocGet cssMap
            (lowerStr (url_basename (strip_wayback (inside_of g)))) with
          | some t => some t
          | none => assocGet cssMap (strip_wayback (inside_of g))) with
        | none => whole
        | some target =>
          "@import \"".toList ++
            norm_slashes (relpath_under_site target cssDir) ++ '"' :: [';']) :=
    rfl
  rw [hrw, h1, h2]

theorem repl_url_unresolved (imgMap fontMap : List (Str × Str))
    (cssDir g whole : Str)
    (h1 : assocGet imgMap (lowerStr (url_basename (clean_of g))) = none)
    (h2 : assocGet imgMap (clean_of g) = none)
    (h3 : assocGet fontMap (lowerStr (url_basename (clean_of g))) = none)
    (h4 : assocGet fontMap (clean_of g) = none) :
    repl_url imgMap fontMap cssDir g whole =
      (if clean_of g = inside_of g then whole
        else "url(".toList ++ clean_of g ++ [')']) := by
  have hrw : repl_url imgMap fontMap cssDir g whole =
      (match
        (match assocGet imgMap (lowerStr (url_basename (clean_of g))) with
          | some t => some t
          | none =>
            match assocGet imgMap (clean_of g) with
            | some t => some t
            | none =>
              match assocGet fontMap
                  (lowerStr (url_basename (clean_of g))) with
              | some t => some t
              | none => assocGet fontMap (clean_of g)) with
        | some target =>
          "url(".toList ++
            norm_slashes (relpath_under_site target cssDir) ++ [')']
        | none =>
          if clean_of g ≠ inside_of g then "url(".toList ++ clean_of g ++ [')']
          else whole) := rfl
  rw [hrw, h1, h2, h3, h4]
  by_cases hc : clean_of g = inside_of g
  · simp [hc]
  · simp [hc]

theorem subUrlGo_import_run (M F : List (Str × Str)) (D : Str) (m : Nat)
    (X : Str) (hp : ')' ∉ X) (hn : '\n' ∉ X) :
    subUrlGo M F D (m + 10) ("@import url(".toList ++ X ++ ')' :: [';'])
      = "@import ".toList ++
          repl_url M F D X ("url(".toList ++ X ++ [')']) ++ [';'] := by
  show subUrlGo M F D (m + 10)
      ('@' :: 'i' :: 'm' :: 'p' :: 'o' :: 'r' :: 't' :: ' ' ::
        'u' :: 'r' :: 'l' :: '(' :: (X ++ ')' :: [';'])) = _
  rw [show m + 10 = m + 9 + 1 from by omega,
    subUrlGo_step_noopen M F D (m + 9) '@'
      ('i' :: 'm' :: 'p' :: 'o' :: 'r' :: 't' :: ' ' :: 'u' :: 'r' :: 'l' :: '(' :: (X ++ ')' :: [';'])) rfl]
  rw [show m + 9 = m + 8 + 1 from by omega,
    subUrlGo_step_noopen M F D (m + 8) 'i'
      ('m' :: 'p' :: 'o' :: 'r' :: 't' :: ' ' :: 'u' :: 'r' :: 'l' :: '(' :: (X ++ ')' :: [';'])) rfl]
  rw [show m + 8 = m + 7 + 1 from by omega,
    subUrlGo_step_noopen M F D (m + 7) 'm'
      ('p' :: 'o' :: 'r' :: 't' :: ' ' :: 'u' :: 'r' :: 'l' :: '(' :: (X ++ ')' :: [';'])) rfl]
  rw [show m + 7 = m + 6 + 1 from by omega,
    subUrlGo_step_noopen M F D (m + 6) 'p'
      ('o' :: 'r' :: 't' :: ' ' :: 'u' :: 'r' :: 'l' :: '(' :: (X ++ ')' :: [';'])) rfl]
  rw [show m + 6 = m + 5 + 1 from by omega,
    subUrlGo_step_noopen M F D (m + 5) 'o'
      ('r' :: 't' :: ' ' :: 'u' :: 'r' :: 'l' :: '(' :: (X ++ ')' :: [';'])) rfl]
  rw [show m + 5 = m + 4 + 1 from by omega,
    subUrlGo_step_noopen M F D (m + 4) 'r'
      ('t' :: ' ' :: 'u' :: 'r' :: 'l' :: '(' :: (X ++ ')' :: [';'])) rfl]
  rw [show m + 4 = m + 3 + 1 from by omega,
    subUrlGo_step_noopen M F D (m + 3) 't'
      (' ' :: 'u' :: 'r' :: 'l' :: '(' :: (X ++ ')' :: [';'])) rfl]
  rw [show m + 3 = m + 2 + 1 from by omega,
    subUrlGo_step_noopen M F D (m + 2) ' '
      ('u' :: 'r' :: 'l' :: '(' :: (X ++ ')' :: [';'])) rfl]
  have hg : grabGroup (('u' :: 'r' :: 'l' :: '(' :: (X ++ ')' :: [';'])).drop 4)
      = some (X, [';']) := by
    show grabGroup (X ++ ')' :: [';']) = some (X, [';'])
    exact grabGroup_append X [';'] hp hn
  rw [show m + 2 = m + 1 + 1 from by omega,
    subUrlGo_step_open M F D (m + 1) 'u'
      ('r' :: 'l' :: '(' :: (X ++ ')' :: [';'])) X [';'] rfl hg]
  have htake : ('u' :: 'r' :: 'l' :: '(' :: (X ++ ')' :: [';'])).take
      (5 + X.length) = "url(".toList ++ X ++ [')'] := by
    have hsplit : 'u' :: 'r' :: 'l' :: '(' :: (X ++ ')' :: [';'])
        = ("url(".toList ++ X ++ [')']) ++ [';'] := by
      simp
    have hlenA : ("url(".toList ++ X ++ [')']).length = 5 + X.length := by
      simp
      omega
    rw [hsplit, ← hlenA, List.take_left]
  rw [htake]
  have hsemi : subUrlGo M F D (m + 1) [';'] = [';'] := by
    rw [subUrlGo_step_noopen M F D m ';' [] rfl, subUrlGo_nil]
  rw [hsemi]
  rfl

theorem subUrl_on_import_statement (M F : List (Str × Str)) (D : Str)
    (X : Str) (hp : ')' ∉ X) (hn : '\n' ∉ X) :
    subUrl M F D ("@import url(".toList ++ X ++ ')' :: [';'])
      = "@import ".toList ++
          repl_url M F D X ("url(".toList ++ X ++ [')']) ++ [';'] := by
  have hlen : ("@import url(".toList ++ X ++ ')' :: [';']).length
      = X.length + 4 + 10 := by
    simp
  rw [subUrl, hlen]
  exact subUrlGo_import_run M F D (X.length + 4) X hp hn

theorem subUrl_on_url_text (M F : List (Str × Str)) (D : Str)
    (X : Str) (hp : ')' ∉ X) (hn : '\n' ∉ X) :
    subUrl M F D ("url(".toList ++ X ++ [')'])
      = repl_url M F D X ("url(".toList ++ X ++ [')']) := by
  have hlen : ("url(".toList ++ X ++ [')']).length = X.length + 4 + 1 := by
    simp
  rw [subUrl, hlen]
  show subUrlGo M F D (X.length + 4 + 1)
      ('u' :: 'r' :: 'l' :: '(' :: (X ++ [')'])) = _
  have hg : grabGroup (('u' :: 'r' :: 'l' :: '(' :: (X ++ [')'])).drop 4)
      = some (X, []) := by
    show grabGroup (X ++ ')' :: []) = some (X, [])
    exact grabGroup_append X [] hp hn
  rw [subUrlGo_step_open M F D (X.length + 4) 'u'
    ('r' :: 'l' :: '(' :: (X ++ [')'])) X [] rfl hg]
  have htake : ('u' :: 'r' :: 'l' :: '(' :: (X ++ [')'])).take (5 + X.length)
      = "url(".toList ++ X ++ [')'] := by
    have hsplit : 'u' :: 'r' :: 'l' :: '(' :: (X ++ [')'])
        = "url(".toList ++ X ++ [')'] := by
      simp
    have hlenA : ("url(".toList ++ X ++ [')']).length = 5 + X.length := by
      simp
      omega
    rw [hsplit, ← hlenA, List.take_length]
  rw [htake, subUrlGo_nil, List.append_nil]

/-- C2 (amended): how `css_rewrite_paths`' two substitution passes compose on
unresolved references. (a) A url-form statement `@import url(X);` (X free of
parentheses, quotes, whitespace and newlines) that resolves in no map is
passed through verbatim by the `@import` pass, but the url pass re-matches
the `url(...)` inside it: the statement survives byte-for-byte exactly when
cleaning (whitespace/quote strip, wayback strip, query/fragment strip)
leaves X unchanged, and otherwise becomes `@import url(<cleaned X>);`.
(b) A free-standing unresolved `url(X)` follows the same verbatim-iff-clean
rule at the pass level. (c) A statement with no case-insensitive `url(`
occurrence — in particular a string-form `@import` — is left byte-for-byte
verbatim by the url pass, and by the import pass when it resolves in no
map. -/
theorem c2_unresolved_reference_after_both_passes :
    (∀ cssMap imgMap fontMap cssDir X,
      (∀ c ∈ X, pyIsSpace c = false ∧ c ≠ '"' ∧ c ≠ squoteChar ∧
        c ≠ '(' ∧ c ≠ ')' ∧ c ≠ '\n') →
      assocGet cssMap
        (lowerStr (url_basename (strip_wayback (inside_of X)))) = none →
      assocGet cssMap (strip_wayback (inside_of X)) = none →
      assocGet imgMap (lowerStr (url_basename (clean_of X))) = none →
      assocGet imgMap (clean_of X) = none →
      assocGet fontMap (lowerStr (url_basename (clean_of X))) = none →
      assocGet fontMap (clean_of X) = none →
      css_two_pass_on_import cssMap imgMap fontMap cssDir X =
        (if clean_of X = inside_of X
          then "@import url(".toList ++ X ++ ')' :: [';']
          else "@import url(".toList ++ clean_of X ++ ')' :: [';'])) ∧
    (∀ imgMap fontMap cssDir X,
      ')' ∉ X → '\n' ∉ X →
      assocGet imgMap (lowerStr (url_basename (clean_of X))) = none →
      assocGet imgMap (clean_of X) = none →
      assocGet fontMap (lowerStr (url_basename (clean_of X))) = none →
      assocGet fontMap (clean_of X) = none →
      subUrl imgMap fontMap cssDir ("url(".toList ++ X ++ [')'])
        = (if clean_of X = inside_of X then "url(".toList ++ X ++ [')']
            else "url(".toList ++ clean_of X ++ [')'])) ∧
    (∀ cssMap imgMap fontMap cssDir g S,
      containsSeq ['u', 'r', 'l', '('] (lowerStr S) = false →
      assocGet cssMap
        (lowerStr (url_basename (strip_wayback (inside_of g)))) = none →
      assocGet cssMap (strip_wayback (inside_of g)) = none →
      repl_import cssMap cssDir g S = S ∧
      subUrl imgMap fontMap cssDir S = S) := by
  have hglue : ∀ Y : Str,
      "@import ".toList ++ ("url(".toList ++ Y ++ [')']) ++ [';']
        = "@import url(".toList ++ Y ++ ')' :: [';'] := by
    intro Y
    rw [show ("@import url(".toList : Str)
        = "@import ".toList ++ "url(".toList from by decide]
    simp [List.append_assoc]
  refine ⟨?_, ?_, ?_⟩
  · intro cssMap imgMap fontMap cssDir X hX h1 h2 h3 h4 h5 h6
    have hp : ')' ∉ X := fun hm => (hX _ hm).2.2.2.2.1 rfl
    have hn : '\n' ∉ X := fun hm => (hX _ hm).2.2.2.2.2 rfl
    simp only [css_two_pass_on_import, subImportSingleUrlForm]
    rw [repl_import_unresolved cssMap cssDir X _ h1 h2,
      subUrl_on_import_statement imgMap fontMap cssDir X hp hn,
      repl_url_unresolved imgMap fontMap cssDir X _ h3 h4 h5 h6]
    by_cases hc : clean_of X = inside_of X
    · rw [if_pos hc, if_pos hc, hglue]
    · rw [if_neg hc, if_neg hc, hglue]
  · intro imgMap fontMap cssDir X hp hn h3 h4 h5 h6
    rw [subUrl_on_url_text imgMap fontMap cssDir X hp hn,
      repl_url_unresolved imgMap fontMap cssDir X _ h3 h4 h5 h6]
  · intro cssMap imgMap fontMap cssDir g S hno h1 h2
    exact ⟨repl_import_unresolved cssMap cssDir g S h1 h2,
      subUrl_id_of_no_open imgMap fontMap cssDir S hno⟩

/-- Witness for `c2_unresolved_reference_after_both_passes`, all maps empty:
(a) `@import url(foo.css?v=2);` comes out of the two passes as
`@import url(foo.css);` — the query is stripped inside the unresolved
import; (b) free-standing `url(foo.png?v=2)` becomes `url(foo.png)`;
(c) the string-form `@import "z.css?v=2";` survives both passes
byte-for-byte. -/
theorem c2_unresolved_reference_after_both_passes_witness :
    css_two_pass_on_import [] [] [] "assets/css".toList "foo.css?v=2".toList
        = "@import url(foo.css);".toList ∧
    subUrl [] [] "assets/css".toList
        ("url(".toList ++ "foo.png?v=2".toList ++ [')'])
        = "url(foo.png)".toList ∧
    (repl_import [] "assets/css".toList "z.css?v=2".toList
        "@import \"z.css?v=2\";".toList = "@import \"z.css?v=2\";".toList ∧
      subUrl [] [] "assets/css".toList "@import \"z.css?v=2\";".toList
        = "@import \"z.css?v=2\";".toList) :=
  ⟨(c2_unresolved_reference_after_both_passes.1 [] [] [] "assets/css".toList
      "foo.css?v=2".toList (by decide) rfl rfl rfl rfl rfl rfl).trans
      (by decide),
   (c2_unresolved_reference_after_both_passes.2.1 [] [] "assets/css".toList
      "foo.png?v=2".toList (by decide) (by decide) rfl rfl rfl rfl).trans
      (by decide),
   c2_unresolved_reference_after_both_passes.2.2 [] [] [] "assets/css".toList
      "z.css?v=2".toList "@import \"z.css?v=2\";".toList (by decide) rfl rfl⟩
